import Mathlib

/-!
# Recursive Elimination Engine (RQAOA core) — shallow embedding

The repository's core (`rqaoa.py`, referenced by `examples/9_RQAOA_example.ipynb`)
is not present in the source tree; only the example notebook with its recorded
execution results, CI configuration and documentation plumbing are.  The engine
below is therefore modelled from the specification (spec.md §3–§4.6, §6), with
the notebook's recorded outputs (solutions, energies, schedules, elimination
rules, classical sub-results) used as the reference behaviour wherever the
specification's words and the recorded outputs disagree.

Weights are rational numbers (the recorded runs use exact dyadic values, so the
rational model matches the floating-point source values exactly).  Spin values
are booleans: `false` is the `Z = +1` eigenstate (bit `0`), `true` is `Z = -1`
(bit `1`), matching the notebook's bitstring convention.
-/

set_option autoImplicit false

attribute [local semireducible] Rat.add Rat.mul Rat.sub Rat.inv

deriving instance DecidableEq for Except

namespace RQAOA

/-- Modelled from the spec: Z-eigenvalue of a bit, bit 0 ↦ +1, bit 1 ↦ -1
(spec §4.6 bit/sign convention). -/
def zOf (b : Bool) : ℚ := if b then -1 else 1

/-- Modelled from the spec (§3 Term): the identity of a Hamiltonian term —
a single-qubit bias or an (unordered, canonically ordered) pairwise coupling. -/
inductive TermId where
  | single (i : ℕ)
  | pair (i j : ℕ)
deriving DecidableEq, BEq, Repr

/-- Modelled from the spec (§3 Elimination Rule): either qubit `i` is fixed to
a sign (`fix i s`, `Z_i := zOf s`), or qubit `elim` is eliminated in favour of
the remaining qubit `keep` with a correlation sign
(`pairElim keep elim s`, `Z_elim := zOf s * Z_keep`). -/
inductive Rule where
  | fix (i : ℕ) (s : Bool)
  | pairElim (keep elim : ℕ) (s : Bool)
deriving DecidableEq, BEq, Repr

/-- Modelled from the spec (§3 Hamiltonian): a set of single and pairwise terms
with rational weights, a scalar constant offset and the set of live qubits.
Qubits are identified by their original problem indices throughout (the spec's
compact relabelling is a presentation-level bijection; see §3 Qubit Label Map). -/
structure Ham where
  live : List ℕ
  singles : List (ℕ × ℚ)
  pairs : List ((ℕ × ℕ) × ℚ)
  const : ℚ
deriving DecidableEq, Repr

/-- Modelled from the spec (§3): merge a single-qubit weight into a term list,
summing with an existing term on the same qubit and dropping terms whose weight
cancels to zero. -/
def addSingle (q : ℕ) (w : ℚ) : List (ℕ × ℚ) → List (ℕ × ℚ)
  | [] => if w = 0 then [] else [(q, w)]
  | p :: rest =>
    if p.1 = q then
      (if p.2 + w = 0 then rest else (q, p.2 + w) :: rest)
    else p :: addSingle q w rest

/-- Canonical (low, high) ordering of an unordered pair key. -/
def pkey (a b : ℕ) : ℕ × ℕ := if a ≤ b then (a, b) else (b, a)

/-- Modelled from the spec (§3): merge a pairwise weight into a term list under
the canonical unordered-pair key, dropping cancelled terms. -/
def addPair (a b : ℕ) (w : ℚ) : List ((ℕ × ℕ) × ℚ) → List ((ℕ × ℕ) × ℚ)
  | [] => if w = 0 then [] else [(pkey a b, w)]
  | p :: rest =>
    if p.1 = pkey a b then
      (if p.2 + w = 0 then rest else (pkey a b, p.2 + w) :: rest)
    else p :: addPair a b w rest

/-- Energy contribution of the single-qubit terms under an assignment. -/
def singlesEnergy (l : List (ℕ × ℚ)) (σ : ℕ → Bool) : ℚ :=
  (l.map (fun p => p.2 * zOf (σ p.1))).sum

/-- Energy contribution of the pairwise terms under an assignment. -/
def pairsEnergy (l : List ((ℕ × ℕ) × ℚ)) (σ : ℕ → Bool) : ℚ :=
  (l.map (fun p => p.2 * zOf (σ p.1.1) * zOf (σ p.1.2))).sum

/-- Term-only energy of a Hamiltonian (offset excluded), as reported by the
classical sub-result in the notebook's recorded runs. -/
def termEnergy (H : Ham) (σ : ℕ → Bool) : ℚ :=
  singlesEnergy H.singles σ + pairsEnergy H.pairs σ

/-- Modelled from the spec (§4.6): full energy of a Hamiltonian, offset
included; reconstructed bitstrings are scored with this on the original
Hamiltonian. -/
def energy (H : Ham) (σ : ℕ → Bool) : ℚ :=
  H.const + termEnergy H σ

/-- Modelled from the spec (§3 invariants): every term index is live, pairwise
keys are strictly ordered (hence distinct), and live qubits are not repeated. -/
def Valid (H : Ham) : Prop :=
  H.live.Nodup
    ∧ (∀ p ∈ H.singles, p.1 ∈ H.live)
    ∧ (∀ p ∈ H.pairs, p.1.1 ∈ H.live ∧ p.1.2 ∈ H.live ∧ p.1.1 < p.1.2)

instance (H : Ham) : Decidable (Valid H) := by
  unfold Valid; infer_instance

/-- Modelled from the spec (§4.1): apply a fix rule `Z_i := zOf s`.  The single
term on `i` folds into the constant; every pairwise term touching `i` converts
into a single term on its other endpoint with weight scaled by the sign. -/
def applyFix (i : ℕ) (s : Bool) (H : Ham) : Ham :=
  let bias := ((H.singles.filter (fun p => p.1 == i)).map (·.2)).sum
  let singles1 := H.singles.filter (fun p => p.1 != i)
  let touching := H.pairs.filter (fun p => p.1.1 == i || p.1.2 == i)
  let keep := H.pairs.filter (fun p => !(p.1.1 == i || p.1.2 == i))
  { live := H.live.erase i
    singles := touching.foldl
      (fun acc p => addSingle (if p.1.1 == i then p.1.2 else p.1.1) (p.2 * zOf s) acc)
      singles1
    pairs := keep
    const := H.const + bias * zOf s }

/-- Modelled from the spec (§4.1): apply a pair-elimination rule
`Z_elim := zOf s * Z_keep`.  Terms referencing `elim` are rewritten onto `keep`
with weight scaled by the sign; the pair `(keep, elim)` itself collapses onto
the constant (`Z_keep² = 1`). -/
def applyPairElim (keep elim : ℕ) (s : Bool) (H : Ham) : Ham :=
  let bias := ((H.singles.filter (fun p => p.1 == elim)).map (·.2)).sum
  let singles1 := H.singles.filter (fun p => p.1 != elim)
  let touching := H.pairs.filter (fun p => p.1.1 == elim || p.1.2 == elim)
  let pairsRest := H.pairs.filter (fun p => !(p.1.1 == elim || p.1.2 == elim))
  let toConst := touching.filter
    (fun p => (if p.1.1 == elim then p.1.2 else p.1.1) == keep)
  let toPairs := touching.filter
    (fun p => (if p.1.1 == elim then p.1.2 else p.1.1) != keep)
  { live := H.live.erase elim
    singles := addSingle keep (bias * zOf s) singles1
    pairs := toPairs.foldl
      (fun acc p => addPair keep (if p.1.1 == elim then p.1.2 else p.1.1) (p.2 * zOf s) acc)
      pairsRest
    const := H.const + ((toConst.map (·.2)).sum) * zOf s }

/-- Modelled from the spec (§7): the error taxonomy of the core. -/
inductive Err where
  | invalidRule
  | oracleFailure
  | nonConvergent
  | configuration
deriving DecidableEq, Repr

/-- Modelled from the spec (§4.1 Failure): apply one elimination rule, failing
with `invalidRule` if it references qubits that are not currently live or if
the kept and eliminated qubits coincide. -/
def applyRuleE (ρ : Rule) (H : Ham) : Except Err Ham :=
  match ρ with
  | .fix i s =>
    if i ∈ H.live then .ok (applyFix i s H) else .error .invalidRule
  | .pairElim k e s =>
    if k ∈ H.live ∧ e ∈ H.live ∧ k ≠ e then .ok (applyPairElim k e s H)
    else .error .invalidRule

/-- Modelled from the spec (§4.4): sequential application of a round's rules. -/
def applyRulesE : List Rule → Ham → Except Err Ham
  | [], H => .ok H
  | ρ :: rest, H =>
    match applyRuleE ρ H with
    | .error e => .error e
    | .ok H1 => applyRulesE rest H1

/-- The qubit a rule eliminates. -/
def elimTarget : Rule → ℕ
  | .fix i _ => i
  | .pairElim _ e _ => e

/-- Magnitude of a rational expectation value. -/
def magn (q : ℚ) : ℚ := if q < 0 then -q else q

/-- Modelled from the spec (§3 Expectation Table): one signed value per term. -/
abbrev Table := List (TermId × ℚ)

/-- Terms of a Hamiltonian in stable input order (singles, then pairs). -/
def termsOf (H : Ham) : List TermId :=
  H.singles.map (fun p => TermId.single p.1) ++ H.pairs.map (fun p => TermId.pair p.1.1 p.1.2)

/-- Modelled from the spec (§4.2): the oracle returns one expectation value per
term present in the Hamiltonian; the mocked table is reindexed over the current
terms (missing entries read as 0). -/
def tableFor (H : Ham) (t : Table) : Table :=
  (termsOf H).map (fun id => (id, ((t.lookup id).getD 0)))

/-- Stable insertion, descending by magnitude (ties keep input order). -/
def insertRanked (x : TermId × ℚ) : Table → Table
  | [] => [x]
  | y :: rest => if magn y.2 < magn x.2 then x :: y :: rest else y :: insertRanked x rest

/-- Modelled from the spec (§4.3): rank all terms by `|value|` descending with
stable tie-breaking. -/
def rankTerms (t : Table) : Table := t.foldr insertRanked []

/-- Modelled from the spec (§4.3, §6): elimination strategies.  An integer
`steps` is the singleton schedule; `custom` with `steps = [1]` is the
historical `original` policy. -/
inductive Strategy where
  | custom (steps : List ℕ)
  | adaptive (nMax : ℕ)
deriving DecidableEq, Repr

/-- Modelled from the spec (§4.3): the per-round step value of the `custom`
strategy; an exhausted schedule list reuses the last configured value. -/
def stepFor (steps : List ℕ) (r : ℕ) : ℕ := steps.getD r (steps.getLastD 1)

/-- Mean magnitude of the values of a table. -/
def meanMag (t : Table) : ℚ := ((t.map (fun p => magn p.2)).sum) / (t.length : ℚ)

/-- Modelled from the spec (§4.3 `adaptive`): take the top `nMax + 1` ranked
values, compute their mean magnitude, select those strictly above it, falling
back to the single top term when none is. -/
def adaSel (ranked : Table) (nMax : ℕ) : Table :=
  let top := ranked.take (nMax + 1)
  let sel := top.filter (fun p => meanMag top < magn p.2)
  if sel.isEmpty then ranked.take 1 else sel

/-- Modelled from the spec (§4.3, §6): strategy configuration surface. -/
structure Config where
  strategy : Strategy
  nCutoff : ℕ
deriving DecidableEq, Repr

/-- Modelled from the spec (§7): compile-time configuration validation —
`steps` must be a non-empty list of positive values, `n_max` positive,
`n_cutoff` positive.  The spec's §7 example also lists `n_cutoff ≥ problem
size` as a configuration error, but its own §8 boundary clause prescribes a
zero-round run with a direct exact solve for `n_cutoff = problem size`; the
explicit boundary clause is followed here. -/
def validCfg (cfg : Config) : Bool :=
  decide (1 ≤ cfg.nCutoff) &&
    (match cfg.strategy with
     | .custom steps => !steps.isEmpty && steps.all (fun s => decide (1 ≤ s))
     | .adaptive nMax => decide (1 ≤ nMax))

/-- Modelled from the spec (§4.3): the round's explicit selection.  Ranked
terms are chosen per strategy, and in all strategies the final selection is
capped at `remaining - n_cutoff` picks. -/
def selectTerms (cfg : Config) (r : ℕ) (ranked : Table) (remaining : ℕ) : Table :=
  let cap := remaining - cfg.nCutoff
  match cfg.strategy with
  | .custom steps => ranked.take (min (stepFor steps r) cap)
  | .adaptive nMax => (adaSel ranked nMax).take cap

/-- Modelled from the spec (§4.3): a selected term becomes an elimination rule;
for a single term the sign is the integer rounding of the value (an exact 0
defaults to +1), for a pair term the lower-indexed qubit is kept and the
higher-indexed one is eliminated with the correlation sign. -/
def mkRule (p : TermId × ℚ) : Rule :=
  match p.1 with
  | .single i => .fix i (decide (p.2 < 0))
  | .pair i j => .pairElim i j (decide (p.2 < 0))

/-- Degree of a qubit in the interaction graph (number of pairwise terms
touching it). -/
def degreeOf (H : Ham) (q : ℕ) : ℕ :=
  (H.pairs.filter (fun p => p.1.1 == q || p.1.2 == q)).length

/-- Single-qubit bias of a qubit (0 when no single term remains). -/
def biasOf (H : Ham) (q : ℕ) : ℚ :=
  ((H.singles.filter (fun p => p.1 == q)).map (·.2)).sum

/-- Modelled from the spec (§4.4) with the sign taken from the notebook's
recorded behaviour: a live qubit with no remaining pairwise term and a nonzero
bias is spontaneously fixed, with no oracle input, to the energy-minimising
sign — the opposite of the sign of its own bias (`(None, i) -> +1` is recorded
in the notebook for an isolated qubit whose bias is negative).  A zero-bias
isolated qubit is left alone.  The spec's §4.4 words say "the sign of its own
bias"; that variant is `spontFixesSpecWords` below. -/
def spontFixes (H : Ham) : List Rule :=
  (H.live.filter (fun q => degreeOf H q == 0 && biasOf H q != 0)).map
    (fun q => Rule.fix q (decide (0 < biasOf H q)))

/-- The spec's literal §4.4 sign policy ("its sign is the sign of its own bias
term"), kept for comparison with the recorded behaviour. -/
def spontFixesSpecWords (H : Ham) : List Rule :=
  (H.live.filter (fun q => degreeOf H q == 0 && biasOf H q != 0)).map
    (fun q => Rule.fix q (decide (biasOf H q < 0)))

/-- Modelled from the spec (§4.2–§4.4): one round — rank the oracle's table,
select, apply the explicit rules sequentially, then the spontaneous cascade;
a round with zero total eliminations is a fatal stall. -/
def runRound (spont : Ham → List Rule) (cfg : Config) (r : ℕ) (t : Table) (H : Ham) :
    Except Err (Ham × List Rule) :=
  let sel := selectTerms cfg r (rankTerms (tableFor H t)) H.live.length
  let rules := sel.map mkRule
  match applyRulesE rules H with
  | .error e => .error e
  | .ok H1 =>
    let sRules := spont H1
    match applyRulesE sRules H1 with
    | .error e => .error e
    | .ok H2 =>
      if rules.length + sRules.length = 0 then .error .nonConvergent
      else .ok (H2, rules ++ sRules)

/-- Modelled from the spec (§4.5): the recursion controller loop.  One oracle
table is consumed per round; running out of tables while above the cutoff
surfaces the external solver's failure. -/
def runLoop (spont : Ham → List Rule) (cfg : Config) :
    ℕ → Ham → List Table → Except Err (Ham × List (List Rule))
  | _, H, [] =>
    if H.live.length ≤ cfg.nCutoff then .ok (H, []) else .error .oracleFailure
  | r, H, t :: ts =>
    if H.live.length ≤ cfg.nCutoff then .ok (H, [])
    else
      match runRound spont cfg r t H with
      | .error e => .error e
      | .ok (H1, rules) =>
        match runLoop spont cfg (r + 1) H1 ts with
        | .error e => .error e
        | .ok (Hf, rest) => .ok (Hf, rules :: rest)

/-- All bit vectors of a given length (exact-solver search space). -/
def allStates : ℕ → List (List Bool)
  | 0 => [[]]
  | n + 1 => (allStates n).map (false :: ·) ++ (allStates n).map (true :: ·)

/-- Assignment of the live qubits given by a cutoff-level bit vector. -/
def assignOf (live : List ℕ) (bits : List Bool) : ℕ → Bool :=
  fun q => (((live.zip bits).lookup q).getD false)

/-- Rational minimum without lattice structure (kernel-friendly). -/
def qmin (a b : ℚ) : ℚ := if a ≤ b then a else b

/-- Modelled from the spec (§6 exact-solver contract): brute-force ground
states of the residual Hamiltonian.  Energies are term-only (offset-free), as
in the notebook's recorded `classical output` (`minimum energy: -3.0` for a
residual whose term-only minimum is −3). -/
def exactSolve (H : Ham) : ℚ × List (List Bool) :=
  let states := allStates H.live.length
  let energies := states.map (fun st => termEnergy H (assignOf H.live st))
  let emin := energies.foldl qmin (energies.headD 0)
  (emin, states.filter (fun st => termEnergy H (assignOf H.live st) == emin))

/-- One reverse-reconstruction step: re-insert the qubit eliminated by a rule
(spec §4.6; `xor s` realises "same sign → same bit, opposite sign → flipped"). -/
def applyRuleRev (σ : ℕ → Bool) : Rule → (ℕ → Bool)
  | .fix i s => fun q => if q = i then s else σ q
  | .pairElim k e s => fun q => if q = e then xor s (σ k) else σ q

/-- Modelled from the spec (§4.6): walk the elimination history in reverse
(most recent first), extending the cutoff-level assignment. -/
def reconstruct (hist : List Rule) (σc : ℕ → Bool) : ℕ → Bool :=
  hist.foldr (fun ρ σ => applyRuleRev σ ρ) σc

/-- Bitstring of an assignment over an ordered list of qubits. -/
def bitstring (qs : List ℕ) (σ : ℕ → Bool) : String :=
  ⟨qs.map (fun q => if σ q then '1' else '0')⟩

/-- Bitstring of a raw bit vector. -/
def bitsString (bits : List Bool) : String :=
  ⟨bits.map (fun b => if b then '1' else '0')⟩

/-- Modelled from the spec (§3, §6 Result Record). `foldedConst` is the sum of
all constants folded into the offset during the eliminations; the increments
telescope to the difference between the residual and original offsets. -/
structure RqaoaResult where
  solution : List (String × ℚ)
  classicalEnergy : ℚ
  classicalStates : List String
  eliminationRules : List (List Rule)
  schedule : List ℕ
  totalSteps : ℕ
  finalLive : List ℕ
  foldedConst : ℚ
deriving DecidableEq, Repr

/-- Modelled from the spec (§4.5–§4.6, §6): the full pipeline with an injected
spontaneous-sign policy.  Reconstructed bitstrings are scored by evaluating the
original, unreduced Hamiltonian. -/
def runPipelineWith (spont : Ham → List Rule) (cfg : Config) (tables : List Table)
    (H0 : Ham) : Except Err RqaoaResult :=
  if validCfg cfg then
    match runLoop spont cfg 0 H0 tables with
    | .error e => .error e
    | .ok (Hf, rounds) =>
      .ok { solution := (exactSolve Hf).2.map (fun st =>
              (bitstring H0.live (reconstruct rounds.flatten (assignOf Hf.live st)),
               energy H0 (reconstruct rounds.flatten (assignOf Hf.live st))))
            classicalEnergy := (exactSolve Hf).1
            classicalStates := (exactSolve Hf).2.map bitsString
            eliminationRules := rounds
            schedule := rounds.map List.length
            totalSteps := rounds.length
            finalLive := Hf.live
            foldedConst := Hf.const - H0.const }
  else .error .configuration

/-- The pipeline with the recorded (energy-minimising) spontaneous sign. -/
def runPipeline (cfg : Config) (tables : List Table) (H0 : Ham) :
    Except Err RqaoaResult :=
  runPipelineWith spontFixes cfg tables H0

/-- The pipeline variant whose spontaneous sign follows the spec's §4.4 words. -/
def runPipelineSpecSign (cfg : Config) (tables : List Table) (H0 : Ham) :
    Except Err RqaoaResult :=
  runPipelineWith spontFixesSpecWords cfg tables H0

/-!
## The notebook's concrete scenario

Minimum Vertex Cover of the `n`-node ring, `field = 1`, `penalty = 10`
(notebook cell 2).  The QUBO cost
`field·Σᵢ xᵢ + penalty·Σ_{(i,j)∈E} (1-xᵢ)(1-xⱼ)` maps under `xᵢ = (1-zᵢ)/2`
to single weights `penalty/2 - field/2`, pair weights `penalty/4` and constant
`field·n/2 + penalty·n/4`; for `n = 10` this reproduces every recorded number
of the notebook (ground energy 5.0, residual classical minimum −3.0, solution
energies 7.0 of the second run). -/
def ringMVC (n : ℕ) (field penalty : ℚ) : Ham :=
  { live := List.range n
    singles := (List.range n).map (fun i => (i, penalty / 2 - field / 2))
    pairs := (List.range (n - 1)).map (fun i => ((i, i + 1), penalty / 4))
        ++ [((0, n - 1), penalty / 4)]
    const := field * n / 2 + penalty * n / 4 }

/-- The notebook's 10-node ring Minimum Vertex Cover QUBO. -/
def mvc10 : Ham := ringMVC 10 1 10

/-- Run 1 of the notebook: `custom` strategy with `steps = 1`, `n_cutoff = 3`. -/
def cfg1 : Config := { strategy := .custom [1], nCutoff := 3 }

/-- Mocked oracle tables reproducing the notebook's first recorded run: the
top-ranked expectation of each round matches the recorded elimination
(`{(0,1): -1.0}`, then the recorded single-qubit picks). -/
def tables1 : List Table :=
  [ [(.pair 0 1, -1)]
  , [(.single 2, -1)]
  , [(.single 4, -1)]
  , [(.single 6, -1)]
  , [(.single 8, -1)] ]

/-- Run 2 of the notebook: `custom` with schedule `[1,2,3,4,5]`, `n_cutoff = 3`. -/
def cfg2 : Config := { strategy := .custom [1, 2, 3, 4, 5], nCutoff := 3 }

/-- Mocked oracle tables reproducing the notebook's second recorded run. -/
def tables2 : List Table :=
  [ [(.pair 0 1, -1)]
  , [(.single 2, -1), (.single 3, -9/10)]
  , [(.single 5, -1), (.single 6, -9/10), (.single 7, -4/5)] ]

/-- The notebook's recorded result of run 1 (cell 8): solution `1010101010`
with energy 5.0, classical sub-result minimum energy −3.0 on states `['10']`,
schedule `[1,1,2,2,2]`, 5 total steps. -/
def recordedSolution1 : List (String × ℚ) := [("1010101010", 5)]

/-- The notebook's recorded schedule of run 1 (cell 8). -/
def recordedSchedule1 : List ℕ := [1, 1, 2, 2, 2]

/-- A one-qubit state with an isolated, negatively biased qubit, as arises in
round 3 of the notebook's first run (qubit 3, bias −1/2, recorded spontaneous
fix `(None, 1): 1.0`, i.e. `Z = +1`). -/
def isoNegBias : Ham := { live := [3], singles := [(3, -1/2)], pairs := [], const := 0 }

/-- The full Result Record the modelled pipeline computes for the notebook's
first run; every field matches the recorded output of notebook cell 8 (the
elimination rules are stated in original qubit labels, the notebook displays
the per-round compact relabelling). -/
def res1 : RqaoaResult :=
  { solution := [("1010101010", 5)]
    classicalEnergy := -3
    classicalStates := ["10"]
    eliminationRules :=
      [ [Rule.pairElim 0 1 true]
      , [Rule.fix 2 true]
      , [Rule.fix 4 true, Rule.fix 3 false]
      , [Rule.fix 6 true, Rule.fix 5 false]
      , [Rule.fix 8 true, Rule.fix 7 false] ]
    schedule := [1, 1, 2, 2, 2]
    totalSteps := 5
    finalLive := [0, 9]
    foldedConst := -22 }

/-- A two-qubit toy Hamiltonian for the boundary witness (`n_cutoff` equal to
the qubit count). -/
def hamW : Ham :=
  { live := [0, 1], singles := [(0, 1)], pairs := [((0, 1), 1)], const := 0 }

/-- Boundary configuration: cutoff equal to `hamW`'s qubit count. -/
def cfgW : Config := { strategy := .custom [1], nCutoff := 2 }

/-- A Hamiltonian with an isolated biased qubit (0), an isolated zero-bias
qubit (3) and a coupled pair (1,2), exercising all spontaneous cases. -/
def hamSpont : Ham :=
  { live := [0, 1, 2, 3], singles := [(0, -1/2), (1, 1)], pairs := [((1, 2), 1)], const := 0 }

/-!
## Helper lemmas: energy bookkeeping of the reducer
-/

theorem zOf_mul_self (b : Bool) : zOf b * zOf b = 1 := by
  cases b <;> simp [zOf]

theorem zOf_xor (s b : Bool) : zOf (xor s b) = zOf s * zOf b := by
  cases s <;> cases b <;> simp [zOf]

theorem singlesEnergy_nil (σ : ℕ → Bool) : singlesEnergy [] σ = 0 := rfl

theorem singlesEnergy_cons (p : ℕ × ℚ) (l : List (ℕ × ℚ)) (σ : ℕ → Bool) :
    singlesEnergy (p :: l) σ = p.2 * zOf (σ p.1) + singlesEnergy l σ := by
  simp [singlesEnergy]

theorem pairsEnergy_nil (σ : ℕ → Bool) : pairsEnergy [] σ = 0 := rfl

theorem pairsEnergy_cons (p : (ℕ × ℕ) × ℚ) (l : List ((ℕ × ℕ) × ℚ)) (σ : ℕ → Bool) :
    pairsEnergy (p :: l) σ = p.2 * zOf (σ p.1.1) * zOf (σ p.1.2) + pairsEnergy l σ := by
  simp [pairsEnergy]

theorem singlesEnergy_addSingle (q : ℕ) (w : ℚ) (l : List (ℕ × ℚ)) (σ : ℕ → Bool) :
    singlesEnergy (addSingle q w l) σ = w * zOf (σ q) + singlesEnergy l σ := by
  induction l with
  | nil =>
    by_cases h : w = 0
    · simp [addSingle, h, singlesEnergy_nil]
    · rw [addSingle, if_neg h, singlesEnergy_cons, singlesEnergy_nil]
  | cons p rest ih =>
    rw [addSingle.eq_def]
    simp only []
    by_cases h1 : p.1 = q
    · rw [if_pos h1]
      by_cases h2 : p.2 + w = 0
      · rw [if_pos h2, singlesEnergy_cons, h1]
        have hw : w = -p.2 := by linarith
        rw [hw]
        ring
      · rw [if_neg h2, singlesEnergy_cons, singlesEnergy_cons, h1]
        ring
    · rw [if_neg h1, singlesEnergy_cons, singlesEnergy_cons, ih]
      ring

theorem pairsEnergy_addPair (a b : ℕ) (w : ℚ) (l : List ((ℕ × ℕ) × ℚ)) (σ : ℕ → Bool) :
    pairsEnergy (addPair a b w l) σ = w * zOf (σ a) * zOf (σ b) + pairsEnergy l σ := by
  have hkey : ∀ v : ℚ, v * zOf (σ (pkey a b).1) * zOf (σ (pkey a b).2) =
      v * zOf (σ a) * zOf (σ b) := by
    intro v
    by_cases h : a ≤ b <;> simp [pkey, h] <;> ring
  induction l with
  | nil =>
    by_cases h : w = 0
    · simp [addPair, h, pairsEnergy_nil, hkey]
    · rw [addPair, if_neg h, pairsEnergy_cons, pairsEnergy_nil, hkey]
  | cons p rest ih =>
    rw [addPair.eq_def]
    simp only []
    by_cases h1 : p.1 = pkey a b
    · rw [if_pos h1]
      by_cases h2 : p.2 + w = 0
      · rw [if_pos h2, pairsEnergy_cons, h1, hkey]
        have hw : w = -p.2 := by linarith
        rw [hw]
        ring
      · rw [if_neg h2, pairsEnergy_cons, pairsEnergy_cons, hkey, h1, hkey]
        ring
    · rw [if_neg h1, pairsEnergy_cons, pairsEnergy_cons, ih]
      ring

theorem sum_map_filter_split {α : Type} (f : α → ℚ) (p : α → Bool) (l : List α) :
    ((l.filter p).map f).sum + ((l.filter (fun a => !(p a))).map f).sum = (l.map f).sum := by
  induction l with
  | nil => simp
  | cons x xs ih =>
    by_cases h : p x
    · simp only [List.filter_cons, h, Bool.not_true, if_true, ite_true, if_false,
        List.map_cons, List.sum_cons]
      rw [← ih]
      simp [h]
      ring
    · have h' : p x = false := by simpa using h
      simp only [List.filter_cons, h', Bool.not_false, List.map_cons, List.sum_cons]
      rw [← ih]
      simp
      ring

theorem singlesEnergy_key_eq (l : List (ℕ × ℚ)) (i : ℕ) (σ : ℕ → Bool)
    (h : ∀ p ∈ l, p.1 = i) :
    singlesEnergy l σ = ((l.map (fun p => p.2)).sum) * zOf (σ i) := by
  induction l with
  | nil => simp [singlesEnergy_nil]
  | cons p rest ih =>
    rw [singlesEnergy_cons, ih (fun q hq => h q (List.mem_cons_of_mem _ hq)),
      h p (List.mem_cons_self _ _)]
    simp only [List.map_cons, List.sum_cons]
    ring

theorem singlesEnergy_foldl {α : Type} (σ : ℕ → Bool) (g : α → ℕ) (w : α → ℚ) :
    ∀ (t : List α) (base : List (ℕ × ℚ)),
      singlesEnergy (t.foldl (fun acc p => addSingle (g p) (w p) acc) base) σ =
        singlesEnergy base σ + (t.map (fun p => w p * zOf (σ (g p)))).sum := by
  intro t
  induction t with
  | nil => intro base; simp
  | cons x xs ih =>
    intro base
    rw [List.foldl_cons, ih, singlesEnergy_addSingle]
    simp only [List.map_cons, List.sum_cons]
    ring

theorem pairsEnergy_foldl {α : Type} (σ : ℕ → Bool) (k : ℕ) (g : α → ℕ) (w : α → ℚ) :
    ∀ (t : List α) (base : List ((ℕ × ℕ) × ℚ)),
      pairsEnergy (t.foldl (fun acc p => addPair k (g p) (w p) acc) base) σ =
        pairsEnergy base σ + (t.map (fun p => w p * zOf (σ k) * zOf (σ (g p)))).sum := by
  intro t
  induction t with
  | nil => intro base; simp
  | cons x xs ih =>
    intro base
    rw [List.foldl_cons, ih, pairsEnergy_addPair]
    simp only [List.map_cons, List.sum_cons]
    ring

theorem pairsEnergy_one_endpoint (σ : ℕ → Bool) (i : ℕ) (c : ℚ) (hz : zOf (σ i) = c)
    (t : List ((ℕ × ℕ) × ℚ))
    (ht : ∀ p ∈ t, (p.1.1 = i ∨ p.1.2 = i) ∧ p.1.1 ≠ p.1.2) :
    pairsEnergy t σ =
      (t.map (fun p => p.2 * c * zOf (σ (if p.1.1 == i then p.1.2 else p.1.1)))).sum := by
  induction t with
  | nil => simp [pairsEnergy_nil]
  | cons p rest ih =>
    rw [pairsEnergy_cons, ih (fun q hq => ht q (List.mem_cons_of_mem _ hq))]
    simp only [List.map_cons, List.sum_cons]
    rcases ht p (List.mem_cons_self _ _) with ⟨h1 | h1, hne⟩
    · have hb : (p.1.1 == i) = true := by simp [h1]
      rw [hb, if_pos rfl, ← hz, ← h1]
    · have hne1 : p.1.1 ≠ i := fun hc => hne (hc.trans h1.symm)
      have hb : (p.1.1 == i) = false := by simp [hne1]
      rw [hb, if_neg (by simp), ← hz, ← h1]
      ring

theorem pairsEnergy_both_endpoints (σ : ℕ → Bool) (e k : ℕ)
    (t : List ((ℕ × ℕ) × ℚ))
    (ht : ∀ p ∈ t, (p.1.1 = e ∧ p.1.2 = k) ∨ (p.1.1 = k ∧ p.1.2 = e)) :
    pairsEnergy t σ = ((t.map (fun p => p.2)).sum) * (zOf (σ e) * zOf (σ k)) := by
  induction t with
  | nil => simp [pairsEnergy_nil]
  | cons p rest ih =>
    rw [pairsEnergy_cons, ih (fun q hq => ht q (List.mem_cons_of_mem _ hq))]
    simp only [List.map_cons, List.sum_cons]
    rcases ht p (List.mem_cons_self _ _) with ⟨h1, h2⟩ | ⟨h1, h2⟩ <;> rw [h1, h2] <;> ring

/-- Exact-substitution law of the fix reduction (spec §4.1): fixing a live
qubit to a sign preserves the energy of every assignment satisfying the rule. -/
theorem energy_applyFix (H : Ham) (i : ℕ) (s : Bool) (σ : ℕ → Bool)
    (hpairs : ∀ p ∈ H.pairs, p.1.1 ≠ p.1.2) (hσ : σ i = s) :
    energy (applyFix i s H) σ = energy H σ := by
  have hz : zOf (σ i) = zOf s := by rw [hσ]
  have hsplitS := sum_map_filter_split (fun p => p.2 * zOf (σ p.1))
      (fun p => p.1 == i) H.singles
  have hsplitP := sum_map_filter_split (fun p => p.2 * zOf (σ p.1.1) * zOf (σ p.1.2))
      (fun p => p.1.1 == i || p.1.2 == i) H.pairs
  have hkeys : ∀ p ∈ H.singles.filter (fun p => p.1 == i), p.1 = i := by
    intro p hp
    have := (List.mem_filter.mp hp).2
    simpa using this
  have htouch : ∀ p ∈ H.pairs.filter (fun p => p.1.1 == i || p.1.2 == i),
      (p.1.1 = i ∨ p.1.2 = i) ∧ p.1.1 ≠ p.1.2 := by
    intro p hp
    have h1 := (List.mem_filter.mp hp).2
    have h2 := hpairs p (List.mem_filter.mp hp).1
    simp only [Bool.or_eq_true, beq_iff_eq] at h1
    exact ⟨h1, h2⟩
  have hfold := singlesEnergy_foldl σ (fun p => if p.1.1 == i then p.1.2 else p.1.1)
      (fun p => p.2 * zOf s)
      (H.pairs.filter (fun p => p.1.1 == i || p.1.2 == i))
      (H.singles.filter (fun p => p.1 != i))
  have hone := pairsEnergy_one_endpoint σ i (zOf s) hz _ htouch
  have hbias : singlesEnergy (H.singles.filter (fun p => p.1 == i)) σ =
      (((H.singles.filter (fun p => p.1 == i)).map (fun p => p.2)).sum) * zOf s := by
    rw [singlesEnergy_key_eq _ i σ hkeys, hz]
  simp only [energy, termEnergy, applyFix, singlesEnergy, pairsEnergy] at hfold hone hbias ⊢
  simp only [bne] at *
  linarith [hsplitS, hsplitP, hfold, hone, hbias]

/-- Exact-substitution law of the pair-elimination reduction (spec §4.1):
rewriting `Z_elim := zOf s * Z_keep` preserves the energy of every assignment
satisfying the rule. -/
theorem energy_applyPairElim (H : Ham) (k e : ℕ) (s : Bool) (σ : ℕ → Bool)
    (hpairs : ∀ p ∈ H.pairs, p.1.1 ≠ p.1.2) (hke : k ≠ e)
    (hσ : σ e = xor s (σ k)) :
    energy (applyPairElim k e s H) σ = energy H σ := by
  have hz : zOf (σ e) = zOf s * zOf (σ k) := by rw [hσ, zOf_xor]
  have hsplitS := sum_map_filter_split (fun p => p.2 * zOf (σ p.1))
      (fun p => p.1 == e) H.singles
  have hsplitP := sum_map_filter_split (fun p => p.2 * zOf (σ p.1.1) * zOf (σ p.1.2))
      (fun p => p.1.1 == e || p.1.2 == e) H.pairs
  have hsplitT := sum_map_filter_split (fun p => p.2 * zOf (σ p.1.1) * zOf (σ p.1.2))
      (fun p => (if p.1.1 == e then p.1.2 else p.1.1) == k)
      (H.pairs.filter (fun p => p.1.1 == e || p.1.2 == e))
  have hkeys : ∀ p ∈ H.singles.filter (fun p => p.1 == e), p.1 = e := by
    intro p hp
    have := (List.mem_filter.mp hp).2
    simpa using this
  have htouch : ∀ p ∈ H.pairs.filter (fun p => p.1.1 == e || p.1.2 == e),
      (p.1.1 = e ∨ p.1.2 = e) ∧ p.1.1 ≠ p.1.2 := by
    intro p hp
    have h1 := (List.mem_filter.mp hp).2
    have h2 := hpairs p (List.mem_filter.mp hp).1
    simp only [Bool.or_eq_true, beq_iff_eq] at h1
    exact ⟨h1, h2⟩
  have htc : ∀ p ∈ (H.pairs.filter (fun p => p.1.1 == e || p.1.2 == e)).filter
      (fun p => (if p.1.1 == e then p.1.2 else p.1.1) == k),
      (p.1.1 = e ∧ p.1.2 = k) ∨ (p.1.1 = k ∧ p.1.2 = e) := by
    intro p hp
    have h1 := (List.mem_filter.mp hp).2
    have h2 := htouch p (List.mem_filter.mp hp).1
    rcases h2 with ⟨h3 | h3, hne⟩
    · left
      have hb : (p.1.1 == e) = true := by simp [h3]
      rw [hb] at h1
      simp only [if_pos rfl, beq_iff_eq] at h1
      simp only [if_true] at h1
      exact ⟨h3, by simpa using h1⟩
    · right
      have hne1 : p.1.1 ≠ e := fun hc => hne (hc.trans h3.symm)
      have hb : (p.1.1 == e) = false := by simp [hne1]
      rw [hb] at h1
      simp only [Bool.false_eq_true, if_false, beq_iff_eq] at h1
      exact ⟨by simpa using h1, h3⟩
  have htp : ∀ p ∈ (H.pairs.filter (fun p => p.1.1 == e || p.1.2 == e)).filter
      (fun p => !((if p.1.1 == e then p.1.2 else p.1.1) == k)),
      (p.1.1 = e ∨ p.1.2 = e) ∧ p.1.1 ≠ p.1.2 := by
    intro p hp
    exact htouch p (List.mem_filter.mp hp).1
  have hfold := pairsEnergy_foldl σ k (fun p => if p.1.1 == e then p.1.2 else p.1.1)
      (fun p => p.2 * zOf s)
      ((H.pairs.filter (fun p => p.1.1 == e || p.1.2 == e)).filter
        (fun p => (if p.1.1 == e then p.1.2 else p.1.1) != k))
      (H.pairs.filter (fun p => !(p.1.1 == e || p.1.2 == e)))
  have hTP0 := pairsEnergy_one_endpoint σ e (zOf s * zOf (σ k)) hz _ htp
  have hTP : pairsEnergy ((H.pairs.filter (fun p => p.1.1 == e || p.1.2 == e)).filter
      (fun p => !((if p.1.1 == e then p.1.2 else p.1.1) == k))) σ =
      ((((H.pairs.filter (fun p => p.1.1 == e || p.1.2 == e)).filter
        (fun p => !((if p.1.1 == e then p.1.2 else p.1.1) == k))).map
        (fun p => p.2 * zOf s * zOf (σ k) *
          zOf (σ (if p.1.1 == e then p.1.2 else p.1.1)))).sum) := by
    rw [hTP0]
    apply congrArg
    apply List.map_congr_left
    intro p _
    ring
  have hTC := pairsEnergy_both_endpoints σ e k _ htc
  have hbias : singlesEnergy (H.singles.filter (fun p => p.1 == e)) σ =
      (((H.singles.filter (fun p => p.1 == e)).map (fun p => p.2)).sum) *
        zOf s * zOf (σ k) := by
    rw [singlesEnergy_key_eq _ e σ hkeys, hz]
    ring
  have hTCz : pairsEnergy ((H.pairs.filter (fun p => p.1.1 == e || p.1.2 == e)).filter
      (fun p => (if p.1.1 == e then p.1.2 else p.1.1) == k)) σ =
      ((((H.pairs.filter (fun p => p.1.1 == e || p.1.2 == e)).filter
        (fun p => (if p.1.1 == e then p.1.2 else p.1.1) == k)).map
        (fun p => p.2)).sum) * zOf s := by
    rw [hTC, hz]
    have hsq := zOf_mul_self (σ k)
    calc ((((H.pairs.filter (fun p => p.1.1 == e || p.1.2 == e)).filter
        (fun p => (if p.1.1 == e then p.1.2 else p.1.1) == k)).map
        (fun p => p.2)).sum) * (zOf s * zOf (σ k) * zOf (σ k))
        = ((((H.pairs.filter (fun p => p.1.1 == e || p.1.2 == e)).filter
        (fun p => (if p.1.1 == e then p.1.2 else p.1.1) == k)).map
        (fun p => p.2)).sum) * zOf s * (zOf (σ k) * zOf (σ k)) := by ring
      _ = _ := by rw [hsq]; ring
  have hadd := singlesEnergy_addSingle k
      ((((H.singles.filter (fun p => p.1 == e)).map (fun p => p.2)).sum) * zOf s)
      (H.singles.filter (fun p => p.1 != e)) σ
  simp only [energy, termEnergy, applyPairElim, singlesEnergy, pairsEnergy]
      at hfold hTP hbias hTCz hadd ⊢
  simp only [bne] at *
  linarith [hsplitS, hsplitP, hsplitT, hbias, hTCz, hTP, hfold, hadd]

/-!
## Helper lemmas: structural invariants of the reducer
-/

theorem mem_addSingle_key {q : ℕ} {w : ℚ} :
    ∀ {l : List (ℕ × ℚ)} {p : ℕ × ℚ}, p ∈ addSingle q w l → p.1 = q ∨ p ∈ l := by
  intro l
  induction l with
  | nil =>
    intro p hp
    rw [addSingle] at hp
    by_cases h : w = 0
    · rw [if_pos h] at hp; cases hp
    · rw [if_neg h] at hp
      left
      rw [List.mem_singleton.mp hp]
  | cons x xs ih =>
    intro p hp
    rw [addSingle.eq_def] at hp
    simp only [] at hp
    by_cases h1 : x.1 = q
    · rw [if_pos h1] at hp
      by_cases h2 : x.2 + w = 0
      · rw [if_pos h2] at hp
        right
        exact List.mem_cons_of_mem _ hp
      · rw [if_neg h2] at hp
        rcases List.mem_cons.mp hp with h | h
        · left; rw [h]
        · right; exact List.mem_cons_of_mem _ h
    · rw [if_neg h1] at hp
      rcases List.mem_cons.mp hp with h | h
      · right; rw [h]; exact List.mem_cons_self _ _
      · rcases ih h with h' | h'
        · left; exact h'
        · right; exact List.mem_cons_of_mem _ h'

theorem mem_addPair_key {a b : ℕ} {w : ℚ} :
    ∀ {l : List ((ℕ × ℕ) × ℚ)} {p : (ℕ × ℕ) × ℚ},
      p ∈ addPair a b w l → p.1 = pkey a b ∨ p ∈ l := by
  intro l
  induction l with
  | nil =>
    intro p hp
    rw [addPair] at hp
    by_cases h : w = 0
    · rw [if_pos h] at hp; cases hp
    · rw [if_neg h] at hp
      left
      rw [List.mem_singleton.mp hp]
  | cons x xs ih =>
    intro p hp
    rw [addPair.eq_def] at hp
    simp only [] at hp
    by_cases h1 : x.1 = pkey a b
    · rw [if_pos h1] at hp
      by_cases h2 : x.2 + w = 0
      · rw [if_pos h2] at hp
        right
        exact List.mem_cons_of_mem _ hp
      · rw [if_neg h2] at hp
        rcases List.mem_cons.mp hp with h | h
        · left; rw [h]
        · right; exact List.mem_cons_of_mem _ h
    · rw [if_neg h1] at hp
      rcases List.mem_cons.mp hp with h | h
      · right; rw [h]; exact List.mem_cons_self _ _
      · rcases ih h with h' | h'
        · left; exact h'
        · right; exact List.mem_cons_of_mem _ h'

theorem mem_foldl_addSingle {α : Type} (g : α → ℕ) (w : α → ℚ) :
    ∀ (t : List α) (base : List (ℕ × ℚ)) (p : ℕ × ℚ),
      p ∈ t.foldl (fun acc x => addSingle (g x) (w x) acc) base →
      p ∈ base ∨ ∃ x ∈ t, p.1 = g x := by
  intro t
  induction t with
  | nil => intro base p hp; left; exact hp
  | cons x xs ih =>
    intro base p hp
    rw [List.foldl_cons] at hp
    rcases ih _ p hp with h | ⟨y, hy, hkey⟩
    · rcases mem_addSingle_key h with hk | hmem
      · right; exact ⟨x, List.mem_cons_self _ _, hk⟩
      · left; exact hmem
    · right; exact ⟨y, List.mem_cons_of_mem _ hy, hkey⟩

theorem mem_foldl_addPair {α : Type} (k : ℕ) (g : α → ℕ) (w : α → ℚ) :
    ∀ (t : List α) (base : List ((ℕ × ℕ) × ℚ)) (p : (ℕ × ℕ) × ℚ),
      p ∈ t.foldl (fun acc x => addPair k (g x) (w x) acc) base →
      p ∈ base ∨ ∃ x ∈ t, p.1 = pkey k (g x) := by
  intro t
  induction t with
  | nil => intro base p hp; left; exact hp
  | cons x xs ih =>
    intro base p hp
    rw [List.foldl_cons] at hp
    rcases ih _ p hp with h | ⟨y, hy, hkey⟩
    · rcases mem_addPair_key h with hk | hmem
      · right; exact ⟨x, List.mem_cons_self _ _, hk⟩
      · left; exact hmem
    · right; exact ⟨y, List.mem_cons_of_mem _ hy, hkey⟩

theorem pkey_cases (a b : ℕ) : pkey a b = (a, b) ∨ pkey a b = (b, a) := by
  rw [pkey]
  by_cases h : a ≤ b
  · left; rw [if_pos h]
  · right; rw [if_neg h]

theorem pkey_lt {a b : ℕ} (h : a ≠ b) : (pkey a b).1 < (pkey a b).2 := by
  rw [pkey]
  by_cases hle : a ≤ b
  · rw [if_pos hle]
    exact lt_of_le_of_ne hle h
  · rw [if_neg hle]
    exact Nat.lt_of_not_le hle

theorem valid_applyFix {H : Ham} {i : ℕ} (s : Bool) (hV : Valid H) (hi : i ∈ H.live) :
    Valid (applyFix i s H) := by
  obtain ⟨hnd, hs, hp⟩ := hV
  refine ⟨hnd.erase i, ?_, ?_⟩
  · intro p hp'
    simp only [applyFix] at hp'
    rcases mem_foldl_addSingle _ _ _ _ p hp' with hmem | ⟨x, hx, hkey⟩
    · have h1 := List.mem_filter.mp hmem
      have h2 := hs p h1.1
      have h3 : p.1 ≠ i := by simpa [bne] using h1.2
      exact (hnd.mem_erase_iff).mpr ⟨h3, h2⟩
    · have hx1 := List.mem_filter.mp hx
      obtain ⟨hx11, hx12, hxlt⟩ := hp x hx1.1
      have hone : (x.1.1 = i ∨ x.1.2 = i) := by
        have := hx1.2
        simpa using this
      have hne : x.1.1 ≠ x.1.2 := Nat.ne_of_lt hxlt
      rw [hkey]
      by_cases hc : x.1.1 = i
      · have hb : (x.1.1 == i) = true := by simp [hc]
        rw [hb, if_pos rfl]
        refine (hnd.mem_erase_iff).mpr ⟨?_, hx12⟩
        intro hcc
        exact hne (hc.trans hcc.symm)
      · have hb : (x.1.1 == i) = false := by simp [hc]
        rw [hb]
        simp only [Bool.false_eq_true, if_false]
        exact (hnd.mem_erase_iff).mpr ⟨hc, hx11⟩
  · intro p hp'
    simp only [applyFix] at hp'
    have h1 := List.mem_filter.mp hp'
    obtain ⟨h11, h12, hlt⟩ := hp p h1.1
    have h2 : ¬(p.1.1 = i ∨ p.1.2 = i) := by
      have := h1.2
      simpa using this
    push_neg at h2
    exact ⟨(hnd.mem_erase_iff).mpr ⟨h2.1, h11⟩, (hnd.mem_erase_iff).mpr ⟨h2.2, h12⟩, hlt⟩

theorem valid_applyPairElim {H : Ham} {k e : ℕ} (s : Bool) (hV : Valid H)
    (hk : k ∈ H.live) (he : e ∈ H.live) (hke : k ≠ e) :
    Valid (applyPairElim k e s H) := by
  obtain ⟨hnd, hs, hp⟩ := hV
  refine ⟨hnd.erase e, ?_, ?_⟩
  · intro p hp'
    simp only [applyPairElim] at hp'
    rcases mem_addSingle_key hp' with hkey | hmem
    · rw [hkey]
      exact (hnd.mem_erase_iff).mpr ⟨hke, hk⟩
    · have h1 := List.mem_filter.mp hmem
      have h2 := hs p h1.1
      have h3 : p.1 ≠ e := by simpa [bne] using h1.2
      exact (hnd.mem_erase_iff).mpr ⟨h3, h2⟩
  · intro p hp'
    simp only [applyPairElim] at hp'
    rcases mem_foldl_addPair _ _ _ _ _ p hp' with hmem | ⟨x, hx, hkey⟩
    · have h1 := List.mem_filter.mp hmem
      obtain ⟨h11, h12, hlt⟩ := hp p h1.1
      have h2 : ¬(p.1.1 = e ∨ p.1.2 = e) := by
        have := h1.2
        simpa using this
      push_neg at h2
      exact ⟨(hnd.mem_erase_iff).mpr ⟨h2.1, h11⟩, (hnd.mem_erase_iff).mpr ⟨h2.2, h12⟩, hlt⟩
    · have hx1 := List.mem_filter.mp hx
      have hx2 := List.mem_filter.mp hx1.1
      obtain ⟨hx11, hx12, hxlt⟩ := hp x hx2.1
      have hone : (x.1.1 = e ∨ x.1.2 = e) := by
        have := hx2.2
        simpa using this
      have hne : x.1.1 ≠ x.1.2 := Nat.ne_of_lt hxlt
      have hothk : (if x.1.1 == e then x.1.2 else x.1.1) ≠ k := by
        have := hx1.2
        simpa [bne] using this
      have hoth_live : (if x.1.1 == e then x.1.2 else x.1.1) ∈ H.live ∧
          (if x.1.1 == e then x.1.2 else x.1.1) ≠ e := by
        by_cases hc : x.1.1 = e
        · have hb : (x.1.1 == e) = true := by simp [hc]
          rw [hb, if_pos rfl]
          exact ⟨hx12, fun hcc => hne (hc.trans hcc.symm)⟩
        · have hb : (x.1.1 == e) = false := by simp [hc]
          rw [hb]
          simp only [Bool.false_eq_true, if_false]
          rcases hone with h | h
          · exact absurd h hc
          · exact ⟨hx11, hc⟩
      rw [hkey]
      have hmemk : k ∈ H.live.erase e := (hnd.mem_erase_iff).mpr ⟨hke, hk⟩
      have hmemo : (if x.1.1 == e then x.1.2 else x.1.1) ∈ H.live.erase e :=
        (hnd.mem_erase_iff).mpr ⟨hoth_live.2, hoth_live.1⟩
      rcases pkey_cases k (if x.1.1 == e then x.1.2 else x.1.1) with hpk | hpk <;>
        rw [hpk]
      · exact ⟨hmemk, hmemo, by
          have := pkey_lt (fun hc => hothk hc.symm)
          rw [hpk] at this
          exact this⟩
      · exact ⟨hmemo, hmemk, by
          have := pkey_lt (fun hc => hothk hc.symm)
          rw [hpk] at this
          exact this⟩

theorem applyRuleE_fix {i : ℕ} {s : Bool} {H H' : Ham}
    (h : applyRuleE (.fix i s) H = .ok H') :
    i ∈ H.live ∧ H' = applyFix i s H := by
  rw [applyRuleE] at h
  by_cases hi : i ∈ H.live
  · rw [if_pos hi] at h
    exact ⟨hi, (Except.ok.injEq _ _).mp h.symm⟩
  · rw [if_neg hi] at h
    cases h

theorem applyRuleE_pair {k e : ℕ} {s : Bool} {H H' : Ham}
    (h : applyRuleE (.pairElim k e s) H = .ok H') :
    (k ∈ H.live ∧ e ∈ H.live ∧ k ≠ e) ∧ H' = applyPairElim k e s H := by
  rw [applyRuleE] at h
  by_cases hc : k ∈ H.live ∧ e ∈ H.live ∧ k ≠ e
  · rw [if_pos hc] at h
    exact ⟨hc, (Except.ok.injEq _ _).mp h.symm⟩
  · rw [if_neg hc] at h
    cases h

theorem applyRuleE_live {ρ : Rule} {H H' : Ham} (h : applyRuleE ρ H = .ok H') :
    elimTarget ρ ∈ H.live ∧ H'.live = H.live.erase (elimTarget ρ) := by
  cases ρ with
  | fix i s =>
    obtain ⟨hi, heq⟩ := applyRuleE_fix h
    exact ⟨hi, by rw [heq]; rfl⟩
  | pairElim k e s =>
    obtain ⟨⟨hk, he, hke⟩, heq⟩ := applyRuleE_pair h
    exact ⟨he, by rw [heq]; rfl⟩

theorem applyRuleE_valid {ρ : Rule} {H H' : Ham} (h : applyRuleE ρ H = .ok H')
    (hV : Valid H) : Valid H' := by
  cases ρ with
  | fix i s =>
    obtain ⟨hi, heq⟩ := applyRuleE_fix h
    rw [heq]
    exact valid_applyFix s hV hi
  | pairElim k e s =>
    obtain ⟨⟨hk, he, hke⟩, heq⟩ := applyRuleE_pair h
    rw [heq]
    exact valid_applyPairElim s hV hk he hke

theorem applyRulesE_length {rs : List Rule} :
    ∀ {H H' : Ham}, applyRulesE rs H = .ok H' →
      H.live.length = H'.live.length + rs.length := by
  induction rs with
  | nil =>
    intro H H' h
    rw [applyRulesE] at h
    cases h
    simp
  | cons ρ rest ih =>
    intro H H' h
    rw [applyRulesE.eq_def] at h
    simp only [] at h
    rcases hr : applyRuleE ρ H with e | H1
    · rw [hr] at h; cases h
    · rw [hr] at h
      obtain ⟨hmem, hlive⟩ := applyRuleE_live hr
      have h1 := ih h
      have h2 : H1.live.length + 1 = H.live.length := by
        rw [hlive, List.length_erase_of_mem hmem]
        exact Nat.sub_add_cancel (List.length_pos_of_mem hmem)
      simp only [List.length_cons]
      omega

theorem applyRulesE_subset {rs : List Rule} :
    ∀ {H H' : Ham}, applyRulesE rs H = .ok H' → H'.live ⊆ H.live := by
  induction rs with
  | nil =>
    intro H H' h
    rw [applyRulesE] at h
    cases h
    exact fun q hq => hq
  | cons ρ rest ih =>
    intro H H' h
    rw [applyRulesE.eq_def] at h
    simp only [] at h
    rcases hr : applyRuleE ρ H with e | H1
    · rw [hr] at h; cases h
    · rw [hr] at h
      obtain ⟨hmem, hlive⟩ := applyRuleE_live hr
      intro q hq
      have h1 := ih h hq
      rw [hlive] at h1
      exact List.mem_of_mem_erase h1

theorem applyRulesE_valid {rs : List Rule} :
    ∀ {H H' : Ham}, applyRulesE rs H = .ok H' → Valid H → Valid H' := by
  induction rs with
  | nil =>
    intro H H' h hV
    rw [applyRulesE] at h
    cases h
    exact hV
  | cons ρ rest ih =>
    intro H H' h hV
    rw [applyRulesE.eq_def] at h
    simp only [] at h
    rcases hr : applyRuleE ρ H with e | H1
    · rw [hr] at h; cases h
    · rw [hr] at h
      exact ih h (applyRuleE_valid hr hV)

theorem singlesEnergy_congr {l : List (ℕ × ℚ)} {σ σ' : ℕ → Bool} {live : List ℕ}
    (hl : ∀ p ∈ l, p.1 ∈ live) (h : ∀ q ∈ live, σ q = σ' q) :
    singlesEnergy l σ = singlesEnergy l σ' := by
  induction l with
  | nil => rfl
  | cons p rest ih =>
    rw [singlesEnergy_cons, singlesEnergy_cons,
      ih (fun q hq => hl q (List.mem_cons_of_mem _ hq)),
      h p.1 (hl p (List.mem_cons_self _ _))]

theorem pairsEnergy_congr {l : List ((ℕ × ℕ) × ℚ)} {σ σ' : ℕ → Bool} {live : List ℕ}
    (hl : ∀ p ∈ l, p.1.1 ∈ live ∧ p.1.2 ∈ live) (h : ∀ q ∈ live, σ q = σ' q) :
    pairsEnergy l σ = pairsEnergy l σ' := by
  induction l with
  | nil => rfl
  | cons p rest ih =>
    rw [pairsEnergy_cons, pairsEnergy_cons,
      ih (fun q hq => hl q (List.mem_cons_of_mem _ hq)),
      h p.1.1 (hl p (List.mem_cons_self _ _)).1,
      h p.1.2 (hl p (List.mem_cons_self _ _)).2]

theorem energy_congr {H : Ham} {σ σ' : ℕ → Bool} (hV : Valid H)
    (h : ∀ q ∈ H.live, σ q = σ' q) : energy H σ = energy H σ' := by
  rw [energy, energy, termEnergy, termEnergy,
    singlesEnergy_congr hV.2.1 h,
    pairsEnergy_congr (fun p hp => ⟨(hV.2.2 p hp).1, (hV.2.2 p hp).2.1⟩) h]

theorem termEnergy_congr {H : Ham} {σ σ' : ℕ → Bool} (hV : Valid H)
    (h : ∀ q ∈ H.live, σ q = σ' q) : termEnergy H σ = termEnergy H σ' := by
  rw [termEnergy, termEnergy,
    singlesEnergy_congr hV.2.1 h,
    pairsEnergy_congr (fun p hp => ⟨(hV.2.2 p hp).1, (hV.2.2 p hp).2.1⟩) h]

/-- Spec §4.6 round-trip core: walking the elimination history in reverse from
any cutoff-level assignment leaves the surviving qubits untouched and gives an
assignment whose energy is the same before and after the whole reduction. -/
theorem reconstruct_ok {rs : List Rule} :
    ∀ {H Hf : Ham}, Valid H → applyRulesE rs H = .ok Hf → ∀ σc : ℕ → Bool,
      (∀ q ∈ Hf.live, reconstruct rs σc q = σc q) ∧
        energy H (reconstruct rs σc) = energy Hf (reconstruct rs σc) := by
  induction rs with
  | nil =>
    intro H Hf hV h σc
    rw [applyRulesE] at h
    cases h
    exact ⟨fun q _ => rfl, rfl⟩
  | cons ρ rest ih =>
    intro H Hf hV h σc
    rw [applyRulesE.eq_def] at h
    simp only [] at h
    rcases hr : applyRuleE ρ H with e | H1
    · rw [hr] at h; cases h
    · rw [hr] at h
      have hV1 := applyRuleE_valid hr hV
      obtain ⟨hmem, hlive⟩ := applyRuleE_live hr
      have hnotin : elimTarget ρ ∉ H1.live := by
        rw [hlive]
        exact hV.1.not_mem_erase
      have hsub := applyRulesE_subset h
      obtain ⟨hagree, henergy⟩ := ih hV1 h σc
      have hrec : reconstruct (ρ :: rest) σc = applyRuleRev (reconstruct rest σc) ρ := rfl
      have hdiff : ∀ q, q ≠ elimTarget ρ →
          applyRuleRev (reconstruct rest σc) ρ q = reconstruct rest σc q := by
        intro q hq
        cases ρ with
        | fix i s =>
          simp only [applyRuleRev]
          rw [if_neg (by simpa [elimTarget] using hq)]
        | pairElim k e s =>
          simp only [applyRuleRev]
          rw [if_neg (by simpa [elimTarget] using hq)]
      have hagree1 : ∀ q ∈ H1.live,
          applyRuleRev (reconstruct rest σc) ρ q = reconstruct rest σc q := by
        intro q hq
        exact hdiff q (fun hc => hnotin (hc ▸ hq))
      constructor
      · intro q hq
        rw [hrec, hagree1 q (hsub hq)]
        exact hagree q hq
      · rw [hrec]
        have hVf := applyRulesE_valid h hV1
        have e1 : energy H (applyRuleRev (reconstruct rest σc) ρ) =
            energy H1 (applyRuleRev (reconstruct rest σc) ρ) := by
          cases ρ with
          | fix i s =>
            obtain ⟨hi, heq⟩ := applyRuleE_fix hr
            rw [heq]
            have hpairs : ∀ p ∈ H.pairs, p.1.1 ≠ p.1.2 :=
              fun p hp => Nat.ne_of_lt (hV.2.2 p hp).2.2
            rw [energy_applyFix H i s _ hpairs (by simp [applyRuleRev])]
          | pairElim k e s =>
            obtain ⟨⟨hk, he, hke⟩, heq⟩ := applyRuleE_pair hr
            rw [heq]
            have hpairs : ∀ p ∈ H.pairs, p.1.1 ≠ p.1.2 :=
              fun p hp => Nat.ne_of_lt (hV.2.2 p hp).2.2
            have hsat : applyRuleRev (reconstruct rest σc) (.pairElim k e s) e =
                xor s (applyRuleRev (reconstruct rest σc) (.pairElim k e s) k) := by
              simp [applyRuleRev, hke]
            rw [energy_applyPairElim H k e s _ hpairs hke hsat]
        have e2 : energy H1 (applyRuleRev (reconstruct rest σc) ρ) =
            energy H1 (reconstruct rest σc) := energy_congr hV1 hagree1
        have e4 : energy Hf (reconstruct rest σc) =
            energy Hf (applyRuleRev (reconstruct rest σc) ρ) :=
          (energy_congr hVf (fun q hq => hagree1 q (hsub hq))).symm
        rw [e1, e2, henergy, e4]

/-!
## Helper lemmas: controller accounting
-/

theorem applyRulesE_append (a b : List Rule) :
    ∀ H : Ham, applyRulesE (a ++ b) H =
      match applyRulesE a H with
      | .error e => .error e
      | .ok H1 => applyRulesE b H1 := by
  induction a with
  | nil =>
    intro H
    rw [List.nil_append, applyRulesE]
  | cons ρ rest ih =>
    intro H
    have hlhs : applyRulesE ((ρ :: rest) ++ b) H =
        match applyRuleE ρ H with
        | .error e => .error e
        | .ok H1 => applyRulesE (rest ++ b) H1 := by
      rw [List.cons_append, applyRulesE.eq_def]
    have hrhs : applyRulesE (ρ :: rest) H =
        match applyRuleE ρ H with
        | .error e => .error e
        | .ok H1 => applyRulesE rest H1 := by
      rw [applyRulesE.eq_def]
    rw [hlhs, hrhs]
    rcases applyRuleE ρ H with e | H1
    · rfl
    · exact ih H1

theorem runRound_ok {spont : Ham → List Rule} {cfg : Config} {r : ℕ} {t : Table}
    {H H' : Ham} {rules : List Rule}
    (h : runRound spont cfg r t H = .ok (H', rules)) :
    applyRulesE rules H = .ok H' ∧ 0 < rules.length := by
  rw [runRound] at h
  simp only [] at h
  rcases h1 : applyRulesE ((selectTerms cfg r (rankTerms (tableFor H t))
      H.live.length).map mkRule) H with e | H1
  · rw [h1] at h; cases h
  · rw [h1] at h
    simp only [] at h
    rcases h2 : applyRulesE (spont H1) H1 with e | H2
    · rw [h2] at h; cases h
    · rw [h2] at h
      simp only [] at h
      by_cases hz : ((selectTerms cfg r (rankTerms (tableFor H t))
          H.live.length).map mkRule).length + (spont H1).length = 0
      · rw [if_pos hz] at h; cases h
      · rw [if_neg hz] at h
        have hinj := (Except.ok.injEq _ _).mp h
        have hH : H2 = H' := congrArg Prod.fst hinj
        have hrules : (selectTerms cfg r (rankTerms (tableFor H t))
            H.live.length).map mkRule ++ spont H1 = rules := congrArg Prod.snd hinj
        subst hH
        refine ⟨?_, ?_⟩
        · rw [← hrules, applyRulesE_append]
          simp only [h1]
          exact h2
        · rw [← hrules]
          simp only [List.length_append]
          omega

theorem runLoop_ok {spont : Ham → List Rule} {cfg : Config} :
    ∀ {ts : List Table} {r : ℕ} {H Hf : Ham} {rounds : List (List Rule)},
      runLoop spont cfg r H ts = .ok (Hf, rounds) →
      applyRulesE rounds.flatten H = .ok Hf ∧ Hf.live.length ≤ cfg.nCutoff ∧
        (∀ rl ∈ rounds, 0 < rl.length) := by
  intro ts
  induction ts with
  | nil =>
    intro r H Hf rounds h
    rw [runLoop] at h
    by_cases hc : H.live.length ≤ cfg.nCutoff
    · rw [if_pos hc] at h
      have hinj := (Except.ok.injEq _ _).mp h
      have hH : H = Hf := congrArg Prod.fst hinj
      have hr : ([] : List (List Rule)) = rounds := congrArg Prod.snd hinj
      subst hH
      rw [← hr]
      exact ⟨rfl, hc, by intro rl hrl; cases hrl⟩
    · rw [if_neg hc] at h; cases h
  | cons t ts ih =>
    intro r H Hf rounds h
    rw [runLoop] at h
    by_cases hc : H.live.length ≤ cfg.nCutoff
    · rw [if_pos hc] at h
      have hinj := (Except.ok.injEq _ _).mp h
      have hH : H = Hf := congrArg Prod.fst hinj
      have hr : ([] : List (List Rule)) = rounds := congrArg Prod.snd hinj
      subst hH
      rw [← hr]
      exact ⟨rfl, hc, by intro rl hrl; cases hrl⟩
    · rw [if_neg hc] at h
      rcases h1 : runRound spont cfg r t H with e | ⟨H1, rules⟩
      · rw [h1] at h; cases h
      · rw [h1] at h
        simp only [] at h
        rcases h2 : runLoop spont cfg (r + 1) H1 ts with e | ⟨Hf', rest⟩
        · rw [h2] at h; cases h
        · rw [h2] at h
          simp only [] at h
          have hinj := (Except.ok.injEq _ _).mp h
          have hH : Hf' = Hf := congrArg Prod.fst hinj
          have hr : rules :: rest = rounds := congrArg Prod.snd hinj
          subst hH
          obtain ⟨ha, hpos⟩ := runRound_ok h1
          obtain ⟨hb, hcut, hall⟩ := ih h2
          rw [← hr]
          refine ⟨?_, hcut, ?_⟩
          · rw [List.flatten_cons, applyRulesE_append]
            simp only [ha]
            exact hb
          · intro rl hrl
            rcases List.mem_cons.mp hrl with hh | hh
            · rw [hh]; exact hpos
            · exact hall rl hh

/-- Pipeline inversion: a successful run names a final Hamiltonian and round
list from which every Result Record field is assembled. -/
theorem runPipelineWith_ok {spont : Ham → List Rule} {cfg : Config}
    {tables : List Table} {H0 : Ham} {res : RqaoaResult}
    (h : runPipelineWith spont cfg tables H0 = .ok res) :
    validCfg cfg = true ∧ ∃ Hf rounds,
      runLoop spont cfg 0 H0 tables = .ok (Hf, rounds) ∧
      res.finalLive = Hf.live ∧
      res.schedule = rounds.map List.length ∧
      res.totalSteps = rounds.length ∧
      res.foldedConst = Hf.const - H0.const ∧
      res.classicalEnergy = (exactSolve Hf).1 ∧
      res.classicalStates = (exactSolve Hf).2.map bitsString ∧
      res.solution = (exactSolve Hf).2.map (fun st =>
        (bitstring H0.live (reconstruct rounds.flatten (assignOf Hf.live st)),
         energy H0 (reconstruct rounds.flatten (assignOf Hf.live st)))) := by
  rw [runPipelineWith] at h
  by_cases hv : validCfg cfg
  · rw [if_pos hv] at h
    rcases hl : runLoop spont cfg 0 H0 tables with e | ⟨Hf, rounds⟩
    · rw [hl] at h; cases h
    · rw [hl] at h
      have hinj := (Except.ok.injEq _ _).mp h
      refine ⟨hv, Hf, rounds, rfl, ?_, ?_, ?_, ?_, ?_, ?_, ?_⟩ <;>
        rw [← hinj]
  · rw [if_neg hv] at h; cases h

/-!
## Helper lemmas: exact solver, spontaneous cascade, selector
-/

theorem exactSolve_mem {H : Ham} {st : List Bool} (h : st ∈ (exactSolve H).2) :
    termEnergy H (assignOf H.live st) = (exactSolve H).1 := by
  simp only [exactSolve] at h ⊢
  have := (List.mem_filter.mp h).2
  simpa using this

theorem degreeOf_congr {H1 H : Ham} (h : H1.pairs = H.pairs) (q : ℕ) :
    degreeOf H1 q = degreeOf H q := by
  rw [degreeOf, degreeOf, h]

theorem filter_key_comm (l : List (ℕ × ℚ)) (i q : ℕ) (h : q ≠ i) :
    (l.filter (fun p => p.1 != i)).filter (fun p => p.1 == q) =
      l.filter (fun p => p.1 == q) := by
  induction l with
  | nil => rfl
  | cons x xs ih =>
    by_cases h1 : x.1 = q
    · have hb1 : (x.1 == q) = true := by simp [h1]
      have hb2 : (x.1 != i) = true := by simp [bne, h1, h]
      simp only [List.filter_cons, hb1, hb2, if_true, ite_true]
      rw [ih]
    · have hb1 : (x.1 == q) = false := by simp [h1]
      by_cases h2 : (x.1 != i) = true
      · simp only [List.filter_cons, hb1, h2, if_true, ite_true, Bool.false_eq_true, if_false]
        exact ih
      · have h2' : (x.1 != i) = false := by simpa using h2
        simp only [List.filter_cons, hb1, h2', Bool.false_eq_true, if_false]
        exact ih

theorem applyFix_isolated {H : Ham} {i : ℕ} (s : Bool) (hdeg : degreeOf H i = 0) :
    (applyFix i s H).pairs = H.pairs ∧
    (applyFix i s H).singles = H.singles.filter (fun p => p.1 != i) ∧
    (applyFix i s H).live = H.live.erase i := by
  have htne : H.pairs.filter (fun p => p.1.1 == i || p.1.2 == i) = [] :=
    List.length_eq_zero.mp hdeg
  have hall : ∀ p ∈ H.pairs, ¬((p.1.1 == i || p.1.2 == i) = true) := by
    intro p hp hc
    have hmem : p ∈ H.pairs.filter (fun p => p.1.1 == i || p.1.2 == i) :=
      List.mem_filter.mpr ⟨hp, hc⟩
    rw [htne] at hmem
    cases hmem
  refine ⟨?_, ?_, rfl⟩
  · simp only [applyFix]
    apply List.filter_eq_self.mpr
    intro p hp
    have := hall p hp
    simpa using this
  · simp only [applyFix, htne, List.foldl_nil]

theorem biasOf_applyFix_ne {H : Ham} {a q : ℕ} (s : Bool) (hdeg : degreeOf H a = 0)
    (hqa : q ≠ a) : biasOf (applyFix a s H) q = biasOf H q := by
  obtain ⟨_, hsng, _⟩ := applyFix_isolated s hdeg
  rw [biasOf, biasOf, hsng, filter_key_comm _ _ _ hqa]

theorem applyRulesE_isolated (f : ℕ → Bool) :
    ∀ (qs : List ℕ) (H : Ham), Valid H → (∀ q ∈ qs, q ∈ H.live) → qs.Nodup →
      (∀ q ∈ qs, degreeOf H q = 0) →
      ∃ H1, applyRulesE (qs.map (fun q => Rule.fix q (f q))) H = .ok H1 ∧
        H1.pairs = H.pairs ∧
        (∀ q, q ∉ qs → biasOf H1 q = biasOf H q) ∧
        (∀ q, q ∈ H1.live ↔ q ∈ H.live ∧ q ∉ qs) := by
  intro qs
  induction qs with
  | nil =>
    intro H hV hsub hnd hdeg
    exact ⟨H, rfl, rfl, fun q _ => rfl, fun q => by simp⟩
  | cons a qs ih =>
    intro H hV hsub hnd hdeg
    have ha : a ∈ H.live := hsub a (List.mem_cons_self _ _)
    have hdega : degreeOf H a = 0 := hdeg a (List.mem_cons_self _ _)
    have hnd' := List.nodup_cons.mp hnd
    obtain ⟨hp, hsng, hlv⟩ := applyFix_isolated (f a) hdega
    have hV' : Valid (applyFix a (f a) H) := valid_applyFix _ hV ha
    have hsub' : ∀ q ∈ qs, q ∈ (applyFix a (f a) H).live := by
      intro q hq
      rw [hlv]
      refine hV.1.mem_erase_iff.mpr ⟨?_, hsub q (List.mem_cons_of_mem _ hq)⟩
      intro hc
      exact hnd'.1 (hc ▸ hq)
    have hdeg' : ∀ q ∈ qs, degreeOf (applyFix a (f a) H) q = 0 := by
      intro q hq
      rw [degreeOf_congr hp]
      exact hdeg q (List.mem_cons_of_mem _ hq)
    obtain ⟨H1, happ, hp1, hb1, hl1⟩ := ih (applyFix a (f a) H) hV' hsub' hnd'.2 hdeg'
    refine ⟨H1, ?_, ?_, ?_, ?_⟩
    · rw [List.map_cons, applyRulesE.eq_def]
      simp only []
      rw [show applyRuleE (Rule.fix a (f a)) H = .ok (applyFix a (f a) H) from by
        rw [applyRuleE, if_pos ha]]
      exact happ
    · rw [hp1, hp]
    · intro q hq
      have hqa : q ≠ a := fun hc => hq (hc ▸ List.mem_cons_self _ _)
      have hqqs : q ∉ qs := fun hc => hq (List.mem_cons_of_mem _ hc)
      rw [hb1 q hqqs, biasOf_applyFix_ne (f a) hdega hqa]
    · intro q
      rw [hl1 q, hlv]
      constructor
      · rintro ⟨hq1, hq2⟩
        have := hV.1.mem_erase_iff.mp hq1
        refine ⟨this.2, ?_⟩
        intro hc
        rcases List.mem_cons.mp hc with hh | hh
        · exact this.1 hh
        · exact hq2 hh
      · rintro ⟨hq1, hq2⟩
        refine ⟨hV.1.mem_erase_iff.mpr ⟨?_, hq1⟩, ?_⟩
        · intro hc
          exact hq2 (hc ▸ List.mem_cons_self _ _)
        · intro hc
          exact hq2 (List.mem_cons_of_mem _ hc)

theorem spontFixes_eq (H : Ham) :
    spontFixes H = (H.live.filter
        (fun q => degreeOf H q == 0 && biasOf H q != 0)).map
      (fun q => Rule.fix q (decide (0 < biasOf H q))) := rfl

theorem sum_magn_gt (c : ℚ) :
    ∀ t : Table, t ≠ [] → (∀ p ∈ t, c < magn p.2) →
      c * t.length < (t.map (fun p => magn p.2)).sum := by
  intro t
  induction t with
  | nil => intro h; cases h rfl
  | cons x xs ih =>
    intro _ h
    by_cases hx : xs = []
    · subst hx
      simp only [List.map_cons, List.map_nil, List.sum_cons, List.sum_nil,
        List.length_cons, List.length_nil]
      have := h x (List.mem_cons_self _ _)
      push_cast
      linarith
    · have hxs := ih hx (fun a ha => h a (List.mem_cons_of_mem _ ha))
      have hfx := h x (List.mem_cons_self _ _)
      simp only [List.map_cons, List.sum_cons, List.length_cons]
      push_cast
      linarith

theorem length_filter_meanMag_lt (t : Table) (hne : t ≠ []) :
    (t.filter (fun p => decide (meanMag t < magn p.2))).length < t.length := by
  by_contra hc
  push_neg at hc
  have hle := List.length_filter_le (fun p => decide (meanMag t < magn p.2)) t
  have heq : (t.filter (fun p => decide (meanMag t < magn p.2))).length = t.length :=
    le_antisymm hle hc
  have hself : t.filter (fun p => decide (meanMag t < magn p.2)) = t :=
    (List.filter_sublist t).eq_of_length heq
  have hall : ∀ p ∈ t, meanMag t < magn p.2 := by
    intro p hp
    have := List.filter_eq_self.mp hself p hp
    simpa using this
  have hlen : (0 : ℚ) < (t.length : ℚ) := by
    have : 0 < t.length := List.length_pos_of_ne_nil hne
    exact_mod_cast this
  have hsum := sum_magn_gt (meanMag t) t hne hall
  rw [meanMag, div_mul_cancel₀ _ (ne_of_gt hlen)] at hsum
  exact lt_irrefl _ hsum

theorem adaSel_bounds {ranked : Table} {nMax : ℕ} (hn : 1 ≤ nMax) (hne : ranked ≠ []) :
    (adaSel ranked nMax).length ≤ nMax ∧ 1 ≤ (adaSel ranked nMax).length ∧
      (((ranked.take (nMax + 1)).filter
          (fun p => decide (meanMag (ranked.take (nMax + 1)) < magn p.2))) = [] →
        adaSel ranked nMax = ranked.take 1) := by
  have htne : ranked.take (nMax + 1) ≠ [] := by
    intro hc
    have hlc := congrArg List.length hc
    simp only [List.length_take, List.length_nil] at hlc
    rcases ranked with _ | ⟨x, xs⟩
    · exact hne rfl
    · simp at hlc
  have hmean := length_filter_meanMag_lt (ranked.take (nMax + 1)) htne
  have htlen : (ranked.take (nMax + 1)).length ≤ nMax + 1 := List.length_take_le _ _
  have h1 : (ranked.take 1).length = 1 := by
    rcases ranked with _ | ⟨x, xs⟩
    · exact absurd rfl hne
    · simp
  rw [adaSel]
  by_cases hsel : ((ranked.take (nMax + 1)).filter
      (fun p => decide (meanMag (ranked.take (nMax + 1)) < magn p.2))) = []
  · rw [hsel]
    simp only [List.isEmpty_nil, if_true, ite_true]
    refine ⟨by omega, by omega, ?_⟩
    simp
  · have hbne : ((ranked.take (nMax + 1)).filter
        (fun p => decide (meanMag (ranked.take (nMax + 1)) < magn p.2))).isEmpty = false := by
      rw [List.isEmpty_eq_false_iff_exists_mem]
      rcases List.exists_mem_of_ne_nil _ hsel with ⟨x, hx⟩
      exact ⟨x, hx⟩
    rw [hbne]
    simp only [Bool.false_eq_true, if_false, ite_false]
    refine ⟨by omega, ?_, fun hc => absurd hc hsel⟩
    have hpos : 0 < ((ranked.take (nMax + 1)).filter
        (fun p => decide (meanMag (ranked.take (nMax + 1)) < magn p.2))).length := by
      rcases List.exists_mem_of_ne_nil _ hsel with ⟨x, hx⟩
      exact List.length_pos_of_mem hx
    omega

/-!
## Claim theorems
-/

/-- C1: running the pipeline on the Minimum Vertex Cover problem of the
10-node ring graph with the `custom` strategy, `steps = 1` and `n_cutoff = 3`
(the notebook's first recorded run, with the oracle mocked to expectation
tables whose top-ranked entries are the recorded eliminations) produces the
schedule `[1,1,2,2,2]` and the single solution bitstring `1010101010` with
energy `5.0`. -/
theorem C1_ring_mvc_custom_steps1 :
    (runPipeline cfg1 tables1 mvc10).map
        (fun res => (res.schedule, res.solution, res.totalSteps)) =
      .ok ([1, 1, 2, 2, 2], [("1010101010", 5)], 5) := by
  decide

/-- C6: the same problem with `custom` steps `[1,2,3,4,5]` and `n_cutoff = 3`
(the notebook's second recorded run) yields total eliminations summing to
7 = 10 − 3, each executed round's actual elimination count is at least the
requested step value, and round 3 exceeds its requested value (3 requested,
4 performed) through a spontaneous elimination. -/
theorem C6_ring_mvc_custom_schedule :
    (runPipeline cfg2 tables2 mvc10).map
        (fun res => (res.schedule, res.schedule.sum)) = .ok ([1, 2, 4], 7)
    ∧ stepFor [1, 2, 3, 4, 5] 0 ≤ [1, 2, 4].getD 0 0
    ∧ stepFor [1, 2, 3, 4, 5] 1 ≤ [1, 2, 4].getD 1 0
    ∧ stepFor [1, 2, 3, 4, 5] 2 ≤ [1, 2, 4].getD 2 0
    ∧ stepFor [1, 2, 3, 4, 5] 2 < [1, 2, 4].getD 2 0 := by
  exact ⟨by decide, by decide, by decide, by decide, by decide⟩

/-- C2 counterexample: in the notebook's first recorded run the schedule sums
to 8, not `original_qubit_count - n_cutoff = 7` — the final round's
spontaneous elimination crosses the cutoff (the run ends with 2 live qubits). -/
theorem C2_counterexample_schedule_sum :
    (runPipeline cfg1 tables1 mvc10).map
        (fun res => (res.schedule.sum, res.finalLive.length)) = .ok (8, 2)
    ∧ mvc10.live.length - cfg1.nCutoff = 7
    ∧ (8 : ℕ) ≠ 7 := by
  exact ⟨by decide, by decide, by decide⟩

/-- C3 counterexample: a zero-degree qubit with a nonzero bias is fixed to the
opposite of the sign of its bias, not to the sign of its bias as claimed: on
an isolated qubit of bias −1/2 the engine emits `Z := +1` (`fix 3 false`), and
running the notebook's first scenario with the claimed sign policy instead
produces solution `1011111110` with energy 8, contradicting the recorded
`1010101010` with energy 5. -/
theorem C3_counterexample_spont_sign :
    spontFixes isoNegBias = [Rule.fix 3 false]
    ∧ biasOf isoNegBias 3 < 0
    ∧ zOf false = 1
    ∧ (runPipelineSpecSign cfg1 tables1 mvc10).map RqaoaResult.solution =
        .ok [("1011111110", 8)]
    ∧ (runPipeline cfg1 tables1 mvc10).map RqaoaResult.solution =
        .ok recordedSolution1
    ∧ [("1011111110", (8 : ℚ))] ≠ recordedSolution1 := by
  exact ⟨by decide, by decide, by decide, by decide, by decide, by decide⟩

/-- C8 counterexample: in the notebook's first recorded run the reconstructed
bitstring's energy on the original Hamiltonian is 5.0, while the cutoff-level
exact energy is −3.0 and the constants folded in during the eliminations sum
to −22: the claimed identity omits the original Hamiltonian's own constant
(30), and 5 ≠ −3 + (−22). -/
theorem C8_counterexample_energy_law :
    (runPipeline cfg1 tables1 mvc10).map
        (fun res => (res.solution, res.classicalEnergy, res.foldedConst)) =
      .ok ([("1010101010", 5)], -3, -22)
    ∧ mvc10.const = 30
    ∧ (5 : ℚ) ≠ -3 + -22 := by
  exact ⟨by decide, by decide, by decide⟩

/-- C2 (amended): for every input problem and strategy configuration, the sum
of the entries of the final schedule equals the original qubit count minus the
final live-qubit count; since the loop stops only at or below the cutoff this
sum is at least `original_qubit_count - n_cutoff`, with equality exactly when
no final-round spontaneous elimination crosses the cutoff. -/
theorem C2_amended_schedule_sum :
    ∀ (cfg : Config) (tables : List Table) (H0 : Ham) (res : RqaoaResult),
      runPipeline cfg tables H0 = .ok res →
      H0.live.length = res.finalLive.length + res.schedule.sum
      ∧ H0.live.length - cfg.nCutoff ≤ res.schedule.sum
      ∧ res.finalLive.length ≤ cfg.nCutoff := by
  intro cfg tables H0 res h
  obtain ⟨hv, Hf, rounds, hl, hfl, hsch, _, _, _, _, _⟩ := runPipelineWith_ok h
  obtain ⟨ha, hcut, _⟩ := runLoop_ok hl
  have hlen := applyRulesE_length ha
  rw [hsch, hfl]
  have hflat : (rounds.map List.length).sum = rounds.flatten.length :=
    (List.length_flatten _).symm
  rw [hflat]
  exact ⟨hlen, by omega, hcut⟩

/-- C2 amended witness: the notebook's first run instantiates the amended law
(10 = 2 + 8, and 8 ≥ 10 − 3). -/
theorem C2_amended_witness : runPipeline cfg1 tables1 mvc10 = .ok res1
    ∧ mvc10.live.length = res1.finalLive.length + res1.schedule.sum
    ∧ mvc10.live.length - cfg1.nCutoff ≤ res1.schedule.sum := by
  have h : runPipeline cfg1 tables1 mvc10 = .ok res1 := by decide
  have h2 := C2_amended_schedule_sum cfg1 tables1 mvc10 res1 h
  exact ⟨h, h2.1, h2.2.1⟩

/-- C3 (amended): after the round's explicit rules are applied, every live
qubit with no remaining pairwise term and a nonzero single-qubit bias is
spontaneously fixed — via a `(None, i) -> sign` rule added with no oracle
input — to the energy-minimising sign, the opposite of the sign of its own
bias (`Z := -1` for positive bias, `Z := +1` for negative bias); a zero-degree
qubit whose bias is zero is not spontaneously eliminated; and after the
spontaneous pass no zero-degree biased qubit remains, so the cascade completes
within the round. -/
theorem C3_amended_spontaneous (H : Ham) (hV : Valid H) :
    ∃ H1, applyRulesE (spontFixes H) H = .ok H1
      ∧ (∀ q ∈ H.live, degreeOf H q = 0 → biasOf H q ≠ 0 →
          Rule.fix q (decide (0 < biasOf H q)) ∈ spontFixes H ∧ q ∉ H1.live)
      ∧ (∀ q ∈ H.live, degreeOf H q = 0 → 0 < biasOf H q →
          Rule.fix q true ∈ spontFixes H)
      ∧ (∀ q ∈ H.live, degreeOf H q = 0 → biasOf H q < 0 →
          Rule.fix q false ∈ spontFixes H)
      ∧ (∀ q ∈ H.live, degreeOf H q = 0 → biasOf H q = 0 → q ∈ H1.live)
      ∧ (∀ q ∈ H1.live, degreeOf H1 q = 0 → biasOf H1 q = 0) := by
  have hqs : ∀ q ∈ H.live.filter
      (fun q => degreeOf H q == 0 && biasOf H q != 0), q ∈ H.live :=
    fun q hq => (List.mem_filter.mp hq).1
  have hdegs : ∀ q ∈ H.live.filter
      (fun q => degreeOf H q == 0 && biasOf H q != 0), degreeOf H q = 0 := by
    intro q hq
    have := (List.mem_filter.mp hq).2
    simp only [Bool.and_eq_true, beq_iff_eq] at this
    exact this.1
  obtain ⟨H1, happ, hp1, hb1, hl1⟩ :=
    applyRulesE_isolated (fun q => decide (0 < biasOf H q))
      (H.live.filter (fun q => degreeOf H q == 0 && biasOf H q != 0)) H hV hqs
      (hV.1.filter _) hdegs
  have hmemfil : ∀ q ∈ H.live, degreeOf H q = 0 → biasOf H q ≠ 0 →
      q ∈ H.live.filter (fun q => degreeOf H q == 0 && biasOf H q != 0) := by
    intro q hq hdeg hbias
    refine List.mem_filter.mpr ⟨hq, ?_⟩
    simp [hdeg, hbias]
  refine ⟨H1, ?_, ?_, ?_, ?_, ?_, ?_⟩
  · rw [spontFixes_eq]
    exact happ
  · intro q hq hdeg hbias
    constructor
    · rw [spontFixes_eq]
      exact List.mem_map_of_mem _ (hmemfil q hq hdeg hbias)
    · intro hc
      exact ((hl1 q).mp hc).2 (hmemfil q hq hdeg hbias)
  · intro q hq hdeg hpos
    have hmem := hmemfil q hq hdeg (ne_of_gt hpos)
    rw [spontFixes_eq]
    have hd : decide (0 < biasOf H q) = true := by simpa using hpos
    have hfe : Rule.fix q true = (fun q => Rule.fix q (decide (0 < biasOf H q))) q := by
      simp [hd]
    rw [hfe]
    exact List.mem_map_of_mem _ hmem
  · intro q hq hdeg hneg
    have hmem := hmemfil q hq hdeg (ne_of_lt hneg)
    rw [spontFixes_eq]
    have hd : decide (0 < biasOf H q) = false := by
      have := not_lt_of_gt hneg
      simpa using this
    have hfe : Rule.fix q false = (fun q => Rule.fix q (decide (0 < biasOf H q))) q := by
      simp [hd]
    rw [hfe]
    exact List.mem_map_of_mem _ hmem
  · intro q hq hdeg hbias
    refine (hl1 q).mpr ⟨hq, ?_⟩
    intro hc
    have := (List.mem_filter.mp hc).2
    simp only [Bool.and_eq_true, beq_iff_eq, bne_iff_ne, ne_eq] at this
    exact this.2 hbias
  · intro q hq hdeg
    obtain ⟨hql, hqf⟩ := (hl1 q).mp hq
    by_contra hbias
    have hbias' : biasOf H q ≠ 0 := by
      rw [← hb1 q hqf]
      exact hbias
    have hdeg' : degreeOf H q = 0 := by
      rw [← degreeOf_congr hp1]
      exact hdeg
    exact hqf (hmemfil q hql hdeg' hbias')

/-- C3 amended witness: on a Hamiltonian with an isolated biased qubit 0
(bias −1/2), a coupled pair (1,2) and an isolated zero-bias qubit 3, the
spontaneous pass fixes exactly qubit 0 to `Z = +1` and keeps qubit 3. -/
theorem C3_amended_witness : Valid hamSpont ∧
    ∃ H1, applyRulesE (spontFixes hamSpont) hamSpont = .ok H1
      ∧ (∀ q ∈ hamSpont.live, degreeOf hamSpont q = 0 → biasOf hamSpont q ≠ 0 →
          Rule.fix q (decide (0 < biasOf hamSpont q)) ∈ spontFixes hamSpont ∧ q ∉ H1.live)
      ∧ (∀ q ∈ hamSpont.live, degreeOf hamSpont q = 0 → 0 < biasOf hamSpont q →
          Rule.fix q true ∈ spontFixes hamSpont)
      ∧ (∀ q ∈ hamSpont.live, degreeOf hamSpont q = 0 → biasOf hamSpont q < 0 →
          Rule.fix q false ∈ spontFixes hamSpont)
      ∧ (∀ q ∈ hamSpont.live, degreeOf hamSpont q = 0 → biasOf hamSpont q = 0 →
          q ∈ H1.live)
      ∧ (∀ q ∈ H1.live, degreeOf H1 q = 0 → biasOf H1 q = 0) :=
  ⟨by decide, C3_amended_spontaneous hamSpont (by decide)⟩

/-- C4: in every round and under every strategy the explicit selection is
capped at `remaining_live_qubits - n_cutoff` picks, while spontaneous
eliminations are exempt: the notebook's first recorded run ends with 2 live
qubits, strictly below the cutoff 3, because the last round's spontaneous
elimination crossed the boundary. -/
theorem C4_selection_cap :
    (∀ (cfg : Config) (r : ℕ) (ranked : Table) (remaining : ℕ),
        (selectTerms cfg r ranked remaining).length ≤ remaining - cfg.nCutoff)
    ∧ runPipeline cfg1 tables1 mvc10 = .ok res1
    ∧ res1.finalLive.length < cfg1.nCutoff := by
  refine ⟨?_, by decide, by decide⟩
  intro cfg r ranked remaining
  simp only [selectTerms]
  rcases hs : cfg.strategy with steps | nMax
  · simp only [List.length_take]
    omega
  · simp only [List.length_take]
    omega

/-- C5: under the adaptive strategy with a positive `n_max` and a non-empty
table, the selection is exactly the terms of the top `n_max + 1` whose
magnitude lies strictly above their mean magnitude, falling back to the single
top-ranked term when that set is empty; it is never empty and never larger
than `n_max`, so at most `n_max` qubits are explicitly eliminated per round,
whatever the cutoff cap. -/
theorem C5_adaptive_selector :
    ∀ (ranked : Table) (nMax : ℕ), 1 ≤ nMax → ranked ≠ [] →
      (adaSel ranked nMax).length ≤ nMax
      ∧ 1 ≤ (adaSel ranked nMax).length
      ∧ adaSel ranked nMax = (if ((ranked.take (nMax + 1)).filter
            (fun p => decide (meanMag (ranked.take (nMax + 1)) < magn p.2))).isEmpty
          then ranked.take 1
          else (ranked.take (nMax + 1)).filter
            (fun p => decide (meanMag (ranked.take (nMax + 1)) < magn p.2)))
      ∧ (((ranked.take (nMax + 1)).filter
            (fun p => decide (meanMag (ranked.take (nMax + 1)) < magn p.2))) = [] →
          adaSel ranked nMax = ranked.take 1)
      ∧ (∀ (r m : ℕ) (c : Config), c.strategy = .adaptive nMax →
          (selectTerms c r ranked m).length ≤ nMax) := by
  intro ranked nMax hn hne
  obtain ⟨hb1, hb2, hb3⟩ := adaSel_bounds hn hne
  refine ⟨hb1, hb2, rfl, hb3, ?_⟩
  intro r m c hc
  simp only [selectTerms, hc]
  simp only [List.length_take]
  omega

/-- C5 witness: a concrete two-entry table with `n_max = 1` selects the single
strictly-above-mean top term. -/
theorem C5_witness : 1 ≤ 1 ∧ ([(TermId.single 0, 1), (TermId.single 1, 1/2)] : Table) ≠ []
    ∧ (adaSel [(TermId.single 0, 1), (TermId.single 1, 1/2)] 1).length ≤ 1
    ∧ 1 ≤ (adaSel [(TermId.single 0, 1), (TermId.single 1, 1/2)] 1).length := by
  have h := C5_adaptive_selector [(TermId.single 0, 1), (TermId.single 1, 1/2)] 1
    (by decide) (by decide)
  exact ⟨by decide, by decide, h.1, h.2.1⟩

/-- C7: every successful round of the recursion strictly decreases the
live-qubit count by at least one, and a round whose selector picks zero terms
and whose spontaneous pass produces zero fixes fails with the fatal
`NonConvergentReduction` error instead of continuing. -/
theorem C7_round_progress :
    ∀ (cfg : Config) (r : ℕ) (t : Table) (H H' : Ham) (rules : List Rule),
      (runRound spontFixes cfg r t H = .ok (H', rules) →
        0 < rules.length ∧ H'.live.length < H.live.length)
      ∧ (selectTerms cfg r (rankTerms (tableFor H t)) H.live.length = [] →
          spontFixes H = [] →
          runRound spontFixes cfg r t H = .error .nonConvergent) := by
  intro cfg r t H H' rules
  constructor
  · intro h
    obtain ⟨ha, hpos⟩ := runRound_ok h
    have hlen := applyRulesE_length ha
    exact ⟨hpos, by omega⟩
  · intro hsel hsp
    simp only [runRound, hsel, List.map_nil, applyRulesE]
    simp only [hsp, applyRulesE, List.length_nil]
    simp

/-- C7 witness: the first round of the notebook's first run succeeds with one
elimination and drops the live count from 10 to 9. -/
theorem C7_witness : runRound spontFixes cfg1 0 [(TermId.pair 0 1, -1)] mvc10 =
      .ok (applyPairElim 0 1 true mvc10, [Rule.pairElim 0 1 true])
    ∧ 0 < [Rule.pairElim 0 1 true].length
    ∧ (applyPairElim 0 1 true mvc10).live.length < mvc10.live.length := by
  have h : runRound spontFixes cfg1 0 [(TermId.pair 0 1, -1)] mvc10 =
      .ok (applyPairElim 0 1 true mvc10, [Rule.pairElim 0 1 true]) := by decide
  have h2 := (C7_round_progress cfg1 0 [(TermId.pair 0 1, -1)] mvc10
      (applyPairElim 0 1 true mvc10) [Rule.pairElim 0 1 true]).1 h
  exact ⟨h, h2.1, h2.2⟩

/-- C8 (amended): for every valid run, the energy of each reconstructed
full-size bitstring — computed by evaluating the original unreduced
Hamiltonian — equals the cutoff-level exact (term-only) energy plus the
original Hamiltonian's own constant plus the sum of all constants folded into
the offset during the eliminations. -/
theorem C8_amended_energy :
    ∀ (cfg : Config) (tables : List Table) (H0 : Ham) (res : RqaoaResult),
      Valid H0 → runPipeline cfg tables H0 = .ok res →
      ∀ se ∈ res.solution,
        se.2 = res.classicalEnergy + (H0.const + res.foldedConst) := by
  intro cfg tables H0 res hV h se hse
  obtain ⟨hv, Hf, rounds, hl, hfl, _, _, hfc, hce, _, hsol⟩ := runPipelineWith_ok h
  obtain ⟨ha, _, _⟩ := runLoop_ok hl
  have hVf := applyRulesE_valid ha hV
  rw [hsol] at hse
  obtain ⟨st, hst, hmap⟩ := List.mem_map.mp hse
  have hs2 : se.2 = energy H0 (reconstruct rounds.flatten (assignOf Hf.live st)) := by
    rw [← hmap]
  obtain ⟨hagree, hen⟩ := reconstruct_ok hV ha (assignOf Hf.live st)
  have hterm : termEnergy Hf (reconstruct rounds.flatten (assignOf Hf.live st)) =
      termEnergy Hf (assignOf Hf.live st) := termEnergy_congr hVf hagree
  have hexact := exactSolve_mem hst
  rw [hs2, hen, energy, hterm, hexact, hce, hfc]
  ring

/-- C8 amended witness: in the notebook's first run, 5.0 = −3.0 + (30 + (−22)). -/
theorem C8_amended_witness : Valid mvc10 ∧ runPipeline cfg1 tables1 mvc10 = .ok res1
    ∧ ("1010101010", (5 : ℚ)) ∈ res1.solution
    ∧ (5 : ℚ) = res1.classicalEnergy + (mvc10.const + res1.foldedConst) := by
  refine ⟨by decide, by decide, by decide, ?_⟩
  exact C8_amended_energy cfg1 tables1 mvc10 res1 (by decide) (by decide)
    ("1010101010", (5 : ℚ)) (by decide)

/-- C9: when `n_cutoff` equals the qubit count of the compiled problem, the
run performs zero rounds and the exact solver is invoked directly on the
unmodified Hamiltonian — the run succeeds, no `ConfigurationError` is raised. -/
theorem C9_cutoff_boundary :
    ∀ (cfg : Config) (tables : List Table) (H0 : Ham),
      validCfg cfg = true → cfg.nCutoff = H0.live.length →
      runPipeline cfg tables H0 = .ok
        { solution := (exactSolve H0).2.map (fun st =>
            (bitstring H0.live (assignOf H0.live st), energy H0 (assignOf H0.live st)))
          classicalEnergy := (exactSolve H0).1
          classicalStates := (exactSolve H0).2.map bitsString
          eliminationRules := []
          schedule := []
          totalSteps := 0
          finalLive := H0.live
          foldedConst := 0 } := by
  intro cfg tables H0 hv hc
  have hle : H0.live.length ≤ cfg.nCutoff := le_of_eq hc.symm
  have hloop : runLoop spontFixes cfg 0 H0 tables = .ok (H0, []) := by
    cases tables with
    | nil => rw [runLoop, if_pos hle]
    | cons t ts => rw [runLoop, if_pos hle]
  rw [runPipeline, runPipelineWith, if_pos hv, hloop]
  simp only []
  rw [show H0.const - H0.const = (0 : ℚ) from sub_self _]
  rfl

/-- C9 witness: a two-qubit toy problem with `n_cutoff = 2` runs zero rounds
and solves exactly. -/
theorem C9_witness : validCfg cfgW = true ∧ cfgW.nCutoff = hamW.live.length ∧
    runPipeline cfgW [] hamW = .ok
      { solution := (exactSolve hamW).2.map (fun st =>
          (bitstring hamW.live (assignOf hamW.live st), energy hamW (assignOf hamW.live st)))
        classicalEnergy := (exactSolve hamW).1
        classicalStates := (exactSolve hamW).2.map bitsString
        eliminationRules := []
        schedule := []
        totalSteps := 0
        finalLive := hamW.live
        foldedConst := 0 } :=
  ⟨by decide, by decide, C9_cutoff_boundary cfgW [] hamW (by decide) (by decide)⟩

/-- C10: at the end of every successful run the live-qubit count is at most
`n_cutoff`, and it can be strictly smaller: in the notebook's first recorded
run the final round's spontaneous elimination crosses the cutoff, leaving 2
live qubits (below `n_cutoff = 3`), and the recorded classical sub-result is
the single 2-qubit state `10`. -/
theorem C10_final_live :
    (∀ (cfg : Config) (tables : List Table) (H0 : Ham) (res : RqaoaResult),
        runPipeline cfg tables H0 = .ok res → res.finalLive.length ≤ cfg.nCutoff)
    ∧ runPipeline cfg1 tables1 mvc10 = .ok res1
    ∧ res1.finalLive.length = 2
    ∧ res1.finalLive.length < cfg1.nCutoff
    ∧ res1.classicalStates = ["10"] := by
  refine ⟨?_, by decide, by decide, by decide, by decide⟩
  intro cfg tables H0 res h
  obtain ⟨_, Hf, rounds, hl, hfl, _, _, _, _, _, _⟩ := runPipelineWith_ok h
  obtain ⟨_, hcut, _⟩ := runLoop_ok hl
  rw [hfl]
  exact hcut

/-- C10 witness: instantiated at the notebook's first run. -/
theorem C10_witness : res1.finalLive.length ≤ cfg1.nCutoff :=
  C10_final_live.1 cfg1 tables1 mvc10 res1 (by decide)

end RQAOA
